import Mathlib

/-!
# TreeNotes graph editor: a shallow embedding of `frontend-codex/script.js`

This file embeds the in-memory graph model of the TreeNotes node-link
editor: the global `boxes` map (box id -> box element + neighbour-id
list), the SVG `#lines` container (one element per edge, with id
`"<lesser>_<greater>"`), and the `totalBoxes` id counter, together with
the operations `createNewBlock`, `newLine`, `deleteLine`,
`getLinesAttached`, `deleteBox`, `download` and `upload`.

Box ids are decimal strings in the page; every id the program itself
allocates is a decimal numeral, the edge-key sort compares ids
numerically (`Number(a) - Number(b)`), and a line id `"a_b"` splits back
into its two endpoint numerals, so ids are modelled as `Nat` and an edge
element by the pair of its endpoints.  A box element is modelled by the
attributes the graph core reads and writes: its text content, its
`style.left`/`style.top` (the numeric value of the CSS length) and its
`style.backgroundColor`.
-/

/-- The attributes of a box div that the graph core uses: text content,
position (numeric value of `style.left` / `style.top`) and background
color string. -/
structure Box where
  content : String
  left : Int
  top : Int
  color : String
  deriving Repr, DecidableEq

/-- A value of the global `boxes` map: the box element together with its
`lines` array of neighbour ids (pushed in connection order). -/
structure Entry where
  box : Box
  lines : List Nat
  deriving Repr, DecidableEq

/-- The global mutable state of the editor: the `boxes` map (a JS `Map`,
insertion ordered, unique keys), the children of the `#lines` SVG
container (each line element represented by the endpoint pair its id
`"a_b"` encodes, in insertion order), and the `totalBoxes` counter. -/
structure GState where
  boxes : List (Nat × Entry)
  domLines : List (Nat × Nat)
  totalBoxes : Nat
  deriving Repr, DecidableEq

/-- `boxes.keys()`, in insertion order. -/
def keys (s : GState) : List Nat := s.boxes.map Prod.fst

/-- `boxes.get(k)`: first entry with key `k` (a JS `Map` holds at most
one). -/
def mapFind (k : Nat) : List (Nat × Entry) → Option Entry
  | [] => none
  | (k', v) :: rest => if k' = k then some v else mapFind k rest

/-- `boxes.set(k, v)`: update in place if the key is present (a JS `Map`
keeps the original position), otherwise append. -/
def mapSet (k : Nat) (v : Entry) : List (Nat × Entry) → List (Nat × Entry)
  | [] => [(k, v)]
  | (k', v') :: rest =>
      if k' = k then (k, v) :: rest else (k', v') :: mapSet k v rest

/-- Mutate the entry stored under `k` (as JS does through the object
reference obtained from `boxes.get(k)`); no effect if `k` is absent. -/
def mapUpdate (k : Nat) (f : Entry → Entry) : List (Nat × Entry) → List (Nat × Entry)
  | [] => []
  | (k', v') :: rest =>
      if k' = k then (k', f v') :: rest else (k', v') :: mapUpdate k f rest

/-- The canonical endpoint pair: `[a, b].sort((x, y) => Number(x) - Number(y))`,
i.e. the line id `"<lesser>_<greater>"` of `newLine`. -/
def cp (a b : Nat) : Nat × Nat := if a ≤ b then (a, b) else (b, a)

/--
`createNewBlock(x, y, content, { id })` (script.js 142-173): resolves the
id (`String(requestedId)` if one was passed, else `String(++totalBoxes)`),
advances `totalBoxes` to `Math.max(totalBoxes, Number(resolvedId))`,
creates the div with the given position/content and default background
`#f1f1f1`, and registers it in `boxes` with an empty `lines` array.
Returns the updated state and the resolved id.
-/
def createNewBlock (x y : Int) (content : String) (requestedId : Option Nat)
    (s : GState) : GState × Nat :=
  match requestedId with
  | some rid =>
      ({ s with
          boxes := mapSet rid ⟨⟨content, x, y, "#f1f1f1"⟩, []⟩ s.boxes,
          totalBoxes := max s.totalBoxes rid }, rid)
  | none =>
      let rid := s.totalBoxes + 1
      ({ s with
          boxes := mapSet rid ⟨⟨content, x, y, "#f1f1f1"⟩, []⟩ s.boxes,
          totalBoxes := rid }, rid)

/-- `if (entry && !entry.lines.includes(other)) entry.lines.push(other)`:
append `other` to a `lines` array unless already present. -/
def pushFun (other : Nat) (e : Entry) : Entry :=
  if other ∈ e.lines then e else { e with lines := e.lines ++ [other] }

/-- One half of `newLine`'s neighbour bookkeeping: push `other` onto
`k`'s `lines` array unless already present (script.js 219-225). -/
def pushNeighbor (k other : Nat) (bs : List (Nat × Entry)) : List (Nat × Entry) :=
  mapUpdate k (pushFun other) bs

/--
`newLine(box1, box2)` (script.js 201-231), with the two boxes given by
id: if either id resolves to no element, return; form the numerically
sorted line id; if an element with that id already exists, return;
otherwise push each endpoint onto the other's `lines` array (first box
first, skipping ids already present) and append the new line element to
the `#lines` container.
-/
def newLine (a b : Nat) (s : GState) : GState :=
  if a ∈ keys s ∧ b ∈ keys s then
    if cp a b ∈ s.domLines then s
    else
      { s with
          boxes := pushNeighbor b a (pushNeighbor a b s.boxes),
          domLines := s.domLines ++ [cp a b] }
  else s

/--
`deleteLine(line)` (script.js 254-267) applied to a line element whose id
splits into `(a, b)`: filter `b` out of `a`'s `lines` array and `a` out
of `b`'s (when those entries exist), and remove the line element itself.
-/
def deleteLine (a b : Nat) (s : GState) : GState :=
  { s with
      boxes :=
        mapUpdate b (fun e => { e with lines := e.lines.filter (fun id => id ≠ a) })
          (mapUpdate a (fun e => { e with lines := e.lines.filter (fun id => id ≠ b) })
            s.boxes),
      domLines := s.domLines.erase (a, b) }

/-- `getLinesAttached(box)` (script.js 274-279): the line elements whose
id has `box.id` as either endpoint. -/
def getLinesAttached (n : Nat) (s : GState) : List (Nat × Nat) :=
  s.domLines.filter (fun p => p.1 = n ∨ p.2 = n)

/--
`deleteBox(box)` (script.js 183-190): collect the attached line elements,
`deleteLine` each of them, then remove the box element and its `boxes`
entry.
-/
def deleteBox (n : Nat) (s : GState) : GState :=
  let s1 := (getLinesAttached n s).foldl (fun st p => deleteLine p.1 p.2 st) s
  { s1 with boxes := s1.boxes.filter (fun p => p.1 ≠ n) }

/-- The `#boxColor` change handler (script.js 537-540): store a new
background color on a box element. -/
def setBoxColor (k : Nat) (c : String) (s : GState) : GState :=
  { s with
      boxes := mapUpdate k (fun e => { e with box := { e.box with color := c } }) s.boxes }

/-- A user edit of a box's contenteditable text: replace its content. -/
def editContent (k : Nat) (c : String) (s : GState) : GState :=
  { s with
      boxes := mapUpdate k (fun e => { e with box := { e.box with content := c } }) s.boxes }

/-!
## Serialization (`download` / `upload`)

The snapshot's `boxes` array is modelled field by field; every field is
optional because `upload` destructures possibly-missing properties and
supplies fallbacks (`|| 0`, default content, `Array.isArray` check,
truthiness test on the color).  `heading`, `cueText` and `summary` are
page text outside the graph store and are not modelled.
-/

/-- The `style` object of a serialized box; `left`/`top` carry the
numeric value `parseInt` recovers, `none` standing for a missing or
unparsable field. -/
structure SnapStyle where
  left : Option Int
  top : Option Int
  backgroundColor : Option String
  deriving Repr, DecidableEq

/-- One element of the snapshot's `boxes` array. -/
structure SnapBox where
  id : Option Nat
  content : Option String
  style : Option SnapStyle
  lines : Option (List Nat)
  deriving Repr, DecidableEq

/--
The content string `download` exports for a box:
`box.childNodes[0]?.textContent?.trim() || ""` (script.js 750).  A box
built by `createNewBlock` has its content text node first (when the
content is nonempty) followed by the `#<id>` footer `h6`; with empty
content no text node exists and `childNodes[0]` is the footer, whose
text `"#<id>"` is exported instead.  An all-whitespace content trims to
the falsy `""`.
-/
def exportContent (c : String) (id : Nat) : String :=
  if c = "" then "#" ++ toString id
  else if c.trim = "" then "" else c.trim

/--
The `boxes` array of the document `download` builds (script.js 748-757):
one record per `boxes` entry, in map (= insertion) order, with the box's
id, exported content, `style.left`/`style.top`/`style.backgroundColor`,
and its `lines` array mapped to strings — in stored order.
-/
def download (s : GState) : List SnapBox :=
  s.boxes.map (fun p =>
    ⟨some p.1,
     some (exportContent p.2.box.content p.1),
     some ⟨some p.2.box.left, some p.2.box.top, some p.2.box.color⟩,
     some p.2.lines⟩)

/-- `[...new Set(l)]`: de-duplication keeping first occurrences. -/
def jsDedup : List Nat → List Nat
  | [] => []
  | x :: xs => x :: (jsDedup xs).filter (fun y => y ≠ x)

/-- The state after `upload` has cleared the page: `#boxes` and `#lines`
emptied, `boxes.clear()`, `totalBoxes = 0` (script.js 786-789). -/
def clearState : GState := ⟨[], [], 0⟩

/--
First `upload` pass, one snapshot box (script.js 791-802):
`createNewBlock(parseInt(style?.left) || 0, parseInt(style?.top) || 0,
content, { id })`, then override the background color when
`style?.backgroundColor` is truthy, then reset the new entry's `lines`
to the de-duplicated snapshot list (`[]` unless it is an array).
-/
def importBox (st : GState) (sb : SnapBox) : GState :=
  let x := (sb.style.bind SnapStyle.left).getD 0
  let y := (sb.style.bind SnapStyle.top).getD 0
  let c := sb.content.getD "New Box"
  let r := createNewBlock x y c sb.id st
  let st2 :=
    match sb.style.bind SnapStyle.backgroundColor with
    | some col => if col = "" then r.1 else setBoxColor r.2 col r.1
    | none => r.1
  { st2 with
      boxes := mapUpdate r.2 (fun e => { e with lines := (sb.lines.map jsDedup).getD [] }) st2.boxes }

/--
Second `upload` pass, one snapshot box (script.js 804-808):
`newLine(String(id), String(linkId))` for every recorded neighbour.  A
box whose snapshot carries no `id` reaches `newLine` as the string
`"undefined"`, which resolves to no element, so every one of its calls
returns immediately.
-/
def importLines (st : GState) (sb : SnapBox) : GState :=
  match sb.id with
  | some i => (sb.lines.getD []).foldl (fun st2 l => newLine i l st2) st
  | none => st

/--
`upload` applied to a parsed document (script.js 770-815): clear the
heading/cue/summary text, the `#boxes` and `#lines` containers, the
`boxes` map and the `totalBoxes` counter, then run the two passes over
`data.boxes || []`.  `data = none` models a document whose `boxes` field
is missing or null.
-/
def upload (data : Option (List SnapBox)) (s : GState) : GState :=
  let bs := data.getD []
  (bs.foldl importLines (bs.foldl importBox clearState))

/-- `isConnected` between two boxes: an element with the canonical line
id exists (the test the connect-menu encodes in `dataset.c`,
script.js 597-613). -/
def isConnected (a b : Nat) (s : GState) : Prop := cp a b ∈ s.domLines

instance (a b : Nat) (s : GState) : Decidable (isConnected a b s) := by
  unfold isConnected; infer_instance

/-- Node `x`'s neighbour list records `y`: the `boxes` map has an entry
for `x` whose `lines` array contains `y`. -/
def listed (x y : Nat) (s : GState) : Prop :=
  ∃ e, mapFind x s.boxes = some e ∧ y ∈ e.lines

instance (x y : Nat) (s : GState) : Decidable (listed x y s) := by
  unfold listed
  exact match mapFind x s.boxes with
  | none => .isFalse (by simp)
  | some e => decidable_of_iff (y ∈ e.lines) (by simp)

/-!
## Reachable states

The initial page carries one seed box (the first `.box` element, entered
into `boxes` with an empty `lines` array; `totalBoxes` starts at `1` and
the seed's footer names it `#1`).  The user-reachable mutations are:
creating a box (the `addBox` toolbar button, content `"New Box"`),
connecting two boxes (connect-menu click / `addBlock`), deleting a line
element that exists (connect-menu click guarded by
`if (existingLine)`), deleting a box, recoloring (the color always comes
through `colorToHex`, every return value of which is a nonempty string,
script.js 647-678), editing a box's text, and importing an arbitrary
parsed document.
-/

/-- The page's initial state: the seed box, no lines, `totalBoxes = 1`.
The seed's content/position/color come from the page markup (not part of
`src`); its color is some nonempty CSS value. -/
def initState (b : Box) : GState := ⟨[(1, ⟨b, []⟩)], [], 1⟩

/-- States reachable through the editor's operations. -/
inductive Reachable : GState → Prop where
  | init (b : Box) (hc : b.color ≠ "") : Reachable (initState b)
  | create {s : GState} (x y : Int) (h : Reachable s) :
      Reachable (createNewBlock x y "New Box" none s).1
  | line {s : GState} (a b : Nat) (h : Reachable s) : Reachable (newLine a b s)
  | delLine {s : GState} (p : Nat × Nat) (hp : p ∈ s.domLines) (h : Reachable s) :
      Reachable (deleteLine p.1 p.2 s)
  | delBox {s : GState} (n : Nat) (h : Reachable s) : Reachable (deleteBox n s)
  | color {s : GState} (k : Nat) (c : String) (hc : c ≠ "") (h : Reachable s) :
      Reachable (setBoxColor k c s)
  | edit {s : GState} (k : Nat) (c : String) (h : Reachable s) :
      Reachable (editContent k c s)
  | imp {s : GState} (data : Option (List SnapBox)) (h : Reachable s) :
      Reachable (upload data s)

/-- As `Reachable`, but every imported snapshot box carries an explicit
id (the shape `download` itself always produces). -/
inductive ReachableW : GState → Prop where
  | init (b : Box) (hc : b.color ≠ "") : ReachableW (initState b)
  | create {s : GState} (x y : Int) (h : ReachableW s) :
      ReachableW (createNewBlock x y "New Box" none s).1
  | line {s : GState} (a b : Nat) (h : ReachableW s) : ReachableW (newLine a b s)
  | delLine {s : GState} (p : Nat × Nat) (hp : p ∈ s.domLines) (h : ReachableW s) :
      ReachableW (deleteLine p.1 p.2 s)
  | delBox {s : GState} (n : Nat) (h : ReachableW s) : ReachableW (deleteBox n s)
  | color {s : GState} (k : Nat) (c : String) (hc : c ≠ "") (h : ReachableW s) :
      ReachableW (setBoxColor k c s)
  | edit {s : GState} (k : Nat) (c : String) (h : ReachableW s) :
      ReachableW (editContent k c s)
  | imp {s : GState} (data : Option (List SnapBox))
      (hid : ∀ sb ∈ data.getD [], sb.id.isSome) (h : ReachableW s) :
      ReachableW (upload data s)

/--
The state invariant the operations maintain: unique box keys; line
elements pairwise distinct, numerically sorted, with both endpoints
existing boxes each of which records the other; each box's neighbour
list duplicate-free, its color nonempty, its id within the allocator;
and every mutually recorded neighbour pair backed by the corresponding
line element.  (The one-sided version is not invariant: an imported
snapshot may record a neighbour id that names no box, and a later box
can be created under that id without the edge.)
-/
def StoreInv (s : GState) : Prop :=
  (keys s).Nodup ∧
  s.domLines.Nodup ∧
  (∀ p ∈ s.domLines, p.1 ≤ p.2) ∧
  (∀ p ∈ s.domLines,
     p.1 ∈ keys s ∧ p.2 ∈ keys s ∧
     (∃ pa ∈ s.boxes, pa.1 = p.1 ∧ p.2 ∈ pa.2.lines) ∧
     (∃ pa ∈ s.boxes, pa.1 = p.2 ∧ p.1 ∈ pa.2.lines)) ∧
  (∀ pa ∈ s.boxes, pa.2.lines.Nodup ∧ pa.2.box.color ≠ "" ∧ pa.1 ≤ s.totalBoxes) ∧
  (∀ pa ∈ s.boxes, ∀ y ∈ pa.2.lines,
     (∃ pb ∈ s.boxes, pb.1 = y ∧ pa.1 ∈ pb.2.lines) → cp pa.1 y ∈ s.domLines)

instance (s : GState) : Decidable (StoreInv s) := by
  unfold StoreInv; infer_instance

/-!
## Basic lemmas about the map model and the canonical pair
-/

/-- `StoreInv`, phrased through `mapFind` lookups. -/
def StoreInvF (s : GState) : Prop :=
  (keys s).Nodup ∧
  s.domLines.Nodup ∧
  (∀ p ∈ s.domLines, p.1 ≤ p.2) ∧
  (∀ p ∈ s.domLines,
     (∃ e, mapFind p.1 s.boxes = some e ∧ p.2 ∈ e.lines) ∧
     (∃ e, mapFind p.2 s.boxes = some e ∧ p.1 ∈ e.lines)) ∧
  (∀ k e, mapFind k s.boxes = some e →
     e.lines.Nodup ∧ e.box.color ≠ "" ∧ k ≤ s.totalBoxes) ∧
  (∀ k e, mapFind k s.boxes = some e → ∀ y ∈ e.lines,
     ∀ ey, mapFind y s.boxes = some ey → k ∈ ey.lines → cp k y ∈ s.domLines)

/-- The id `createNewBlock` resolves for a snapshot box during import. -/
def importRid (st : GState) (sb : SnapBox) : Nat :=
  match sb.id with
  | some rid => rid
  | none => st.totalBoxes + 1

/-- The first five clauses of `StoreInvF`: everything except the
mutual-neighbour backing, which is re-established only once the
second import pass has run over every recorded pair. -/
def StoreInvCore (s : GState) : Prop :=
  (keys s).Nodup ∧
  s.domLines.Nodup ∧
  (∀ p ∈ s.domLines, p.1 ≤ p.2) ∧
  (∀ p ∈ s.domLines,
     (∃ e, mapFind p.1 s.boxes = some e ∧ p.2 ∈ e.lines) ∧
     (∃ e, mapFind p.2 s.boxes = some e ∧ p.1 ∈ e.lines)) ∧
  (∀ k e, mapFind k s.boxes = some e →
     e.lines.Nodup ∧ e.box.color ≠ "" ∧ k ≤ s.totalBoxes)

/-- The pairs the second `upload` pass will pass to `newLine` for one
snapshot box: `(id, linkId)` for each recorded neighbour, or nothing
when the box has no id (the call then resolves `"undefined"`). -/
def sbPairs (sb : SnapBox) : List (Nat × Nat) :=
  match sb.id with
  | some i => (sb.lines.getD []).map (fun y => (i, y))
  | none => []

/-- All second-pass pairs of a snapshot. -/
def todoPairs : List SnapBox → List (Nat × Nat)
  | [] => []
  | sb :: rest => sbPairs sb ++ todoPairs rest

/-- The snapshot record `download` emits for one `boxes` entry. -/
def snapOfEntry (pa : Nat × Entry) : SnapBox :=
  ⟨some pa.1,
   some (exportContent pa.2.box.content pa.1),
   some ⟨some pa.2.box.left, some pa.2.box.top, some pa.2.box.color⟩,
   some pa.2.lines⟩

/-- The `boxes` entry the first import pass rebuilds from that record. -/
def importedEntry (pa : Nat × Entry) : Nat × Entry :=
  (pa.1,
   ⟨⟨exportContent pa.2.box.content pa.1, pa.2.box.left, pa.2.box.top, pa.2.box.color⟩,
    pa.2.lines⟩)

/-- Every recorded neighbour that names an existing box is backed by a
line element.  This holds after any well-formed import and is destroyed
only by importing a snapshot with dangling neighbour references and then
creating a box under the dangling id. -/
def LinesBacked (s : GState) : Prop :=
  ∀ pa ∈ s.boxes, ∀ y ∈ pa.2.lines, y ∈ keys s → cp pa.1 y ∈ s.domLines

instance (s : GState) : Decidable (LinesBacked s) := by
  unfold LinesBacked; infer_instance

/-- The connect-menu disconnect path (script.js 618-620): look the line
element up by its canonical id and call `deleteLine` only when it
exists (`if (existingLine) deleteLine(existingLine)`). -/
def deleteLineChecked (a b : Nat) (s : GState) : GState :=
  if (a, b) ∈ s.domLines then deleteLine a b s else s

/-- A seed box as the shipped page provides one. -/
def seedBox0 : Box := ⟨"Seed", 0, 0, "#f1f1f1"⟩

/-- The initial page state. -/
def st0 : GState := initState seedBox0

/-- Two boxes, no lines. -/
def st2 : GState := (createNewBlock 0 20 "New Box" none st0).1

/-- Three boxes, no lines. -/
def st3 : GState := (createNewBlock 0 20 "New Box" none st2).1

/-- The three-box path 1-2-3. -/
def path123 : GState := newLine 2 3 (newLine 1 2 st3)

/-- Three boxes with box 1 connected to 3 first, then to 2: its `lines`
array reads `[3, 2]`. -/
def connect13then12 : GState := newLine 1 2 (newLine 1 3 st3)

/-- Import of two id-less snapshot boxes that record each other: the
first pass stores the mutual neighbour lists under fresh ids 1 and 2,
and the second pass connects nothing because `String(undefined)` names
no element. -/
def phantomImport : GState :=
  upload (some [⟨none, none, none, some [2]⟩, ⟨none, none, none, some [1]⟩]) st0

/-- Import of a single box with id 1 and empty content. -/
def emptyContentImport : GState :=
  upload (some [⟨some 1, some "", some ⟨some 0, some 0, some "#ABCDEF"⟩, some []⟩]) st0

theorem cp_comm (a b : Nat) : cp a b = cp b a := by
  unfold cp
  rcases Nat.lt_trichotomy a b with h | h | h
  · rw [if_pos (Nat.le_of_lt h), if_neg (by omega)]
  · simp [h]
  · rw [if_neg (by omega), if_pos (Nat.le_of_lt h)]

theorem cp_fst_le_snd (a b : Nat) : (cp a b).1 ≤ (cp a b).2 := by
  unfold cp; split <;> simp <;> omega

theorem cp_eq_self {a b : Nat} (h : a ≤ b) : cp a b = (a, b) := by
  unfold cp; rw [if_pos h]

theorem cp_eq_iff {x y a b : Nat} :
    cp x y = cp a b ↔ (x = a ∧ y = b) ∨ (x = b ∧ y = a) := by
  unfold cp
  split <;> split <;> simp [Prod.ext_iff] <;> omega

theorem mapFind_mem {k : Nat} {v : Entry} :
    ∀ {l : List (Nat × Entry)}, mapFind k l = some v → (k, v) ∈ l := by
  intro l
  induction l with
  | nil => intro h; simp [mapFind] at h
  | cons p rest ih =>
      obtain ⟨k', v'⟩ := p
      intro h
      by_cases hk : k' = k
      · simp only [mapFind, if_pos hk] at h
        injection h with h
        subst h; subst hk
        exact List.mem_cons_self _ _
      · simp only [mapFind, if_neg hk] at h
        exact List.mem_cons_of_mem _ (ih h)

theorem mapFind_eq_none {k : Nat} :
    ∀ {l : List (Nat × Entry)}, k ∉ l.map Prod.fst → mapFind k l = none := by
  intro l
  induction l with
  | nil => intro _; rfl
  | cons p rest ih =>
      obtain ⟨k', v'⟩ := p
      intro h
      simp only [List.map_cons, List.mem_cons] at h
      push_neg at h
      simp only [mapFind, if_neg (Ne.symm h.1)]
      exact ih h.2

theorem mapFind_isSome {k : Nat} :
    ∀ {l : List (Nat × Entry)}, k ∈ l.map Prod.fst → ∃ v, mapFind k l = some v := by
  intro l
  induction l with
  | nil => intro h; simp at h
  | cons p rest ih =>
      obtain ⟨k', v'⟩ := p
      intro h
      by_cases hk : k' = k
      · exact ⟨v', by simp [mapFind, hk]⟩
      · simp only [List.map_cons, List.mem_cons] at h
        rcases h with h | h
        · exact absurd h.symm hk
        · rcases ih h with ⟨v, hv⟩
          exact ⟨v, by simpa [mapFind, hk] using hv⟩

theorem mem_mapFind {k : Nat} {v : Entry} :
    ∀ {l : List (Nat × Entry)}, (l.map Prod.fst).Nodup → (k, v) ∈ l →
      mapFind k l = some v := by
  intro l
  induction l with
  | nil => intro _ h; simp at h
  | cons p rest ih =>
      obtain ⟨k', v'⟩ := p
      intro hn h
      simp only [List.map_cons, List.nodup_cons] at hn
      rcases List.mem_cons.mp h with he | h
      · rcases he with ⟨rfl, rfl⟩
        simp [mapFind]
      · have hk : k' ≠ k := by
          intro he
          exact hn.1 (he ▸ (List.mem_map.mpr ⟨(k, v), h, rfl⟩))
        simp only [mapFind, if_neg hk]
        exact ih hn.2 h

theorem keys_mapUpdate (k : Nat) (f : Entry → Entry) :
    ∀ (l : List (Nat × Entry)), (mapUpdate k f l).map Prod.fst = l.map Prod.fst := by
  intro l
  induction l with
  | nil => rfl
  | cons p rest ih =>
      obtain ⟨k', v'⟩ := p
      by_cases hk : k' = k <;> simp [mapUpdate, hk, ih]

theorem mapFind_mapUpdate_self (k : Nat) (f : Entry → Entry) :
    ∀ (l : List (Nat × Entry)), mapFind k (mapUpdate k f l) = (mapFind k l).map f := by
  intro l
  induction l with
  | nil => rfl
  | cons p rest ih =>
      obtain ⟨k', v'⟩ := p
      by_cases hk : k' = k <;> simp [mapUpdate, mapFind, hk, ih]

theorem mapFind_mapUpdate_ne {k k' : Nat} (f : Entry → Entry) (h : k' ≠ k) :
    ∀ (l : List (Nat × Entry)), mapFind k' (mapUpdate k f l) = mapFind k' l := by
  intro l
  induction l with
  | nil => rfl
  | cons p rest ih =>
      obtain ⟨k₀, v₀⟩ := p
      by_cases hk : k₀ = k
      · have h₀ : k₀ ≠ k' := fun he => h (he ▸ hk ▸ rfl)
        simp [mapUpdate, mapFind, hk, h₀, Ne.symm h]
      · by_cases hk' : k₀ = k' <;> simp [mapUpdate, mapFind, hk, hk', ih, h]

theorem mapUpdate_eq_self {k : Nat} {f : Entry → Entry} :
    ∀ {l : List (Nat × Entry)}, (∀ v, mapFind k l = some v → f v = v) →
      mapUpdate k f l = l := by
  intro l
  induction l with
  | nil => intro _; rfl
  | cons p rest ih =>
      obtain ⟨k', v'⟩ := p
      intro h
      by_cases hk : k' = k
      · have hv : f v' = v' := h v' (by simp [mapFind, hk])
        simp [mapUpdate, hk, hv]
      · simp only [mapUpdate, if_neg hk]
        rw [ih (fun v hv => h v (by simpa [mapFind, hk] using hv))]

theorem mapSet_of_not_mem {k : Nat} {v : Entry} :
    ∀ {l : List (Nat × Entry)}, k ∉ l.map Prod.fst → mapSet k v l = l ++ [(k, v)] := by
  intro l
  induction l with
  | nil => intro _; rfl
  | cons p rest ih =>
      obtain ⟨k', v'⟩ := p
      intro h
      simp only [List.map_cons, List.mem_cons] at h
      push_neg at h
      simp only [mapSet, if_neg (Ne.symm h.1)]
      rw [ih h.2]
      rfl

theorem keys_mapSet_mem {k : Nat} {v : Entry} :
    ∀ {l : List (Nat × Entry)}, k ∈ l.map Prod.fst →
      (mapSet k v l).map Prod.fst = l.map Prod.fst := by
  intro l
  induction l with
  | nil => intro h; simp at h
  | cons p rest ih =>
      obtain ⟨k', v'⟩ := p
      intro h
      by_cases hk : k' = k
      · simp [mapSet, hk]
      · simp only [List.map_cons, List.mem_cons] at h
        rcases h with h | h
        · exact absurd h.symm hk
        · simp [mapSet, hk, ih h]

theorem mapUpdate_append_not_mem {k : Nat} {f : Entry → Entry} {v : Entry} :
    ∀ {l : List (Nat × Entry)}, k ∉ l.map Prod.fst →
      mapUpdate k f (l ++ [(k, v)]) = l ++ [(k, f v)] := by
  intro l
  induction l with
  | nil => intro _; simp [mapUpdate]
  | cons p rest ih =>
      obtain ⟨k', v'⟩ := p
      intro h
      simp only [List.map_cons, List.mem_cons] at h
      push_neg at h
      simp only [List.cons_append, mapUpdate, if_neg (Ne.symm h.1), List.append_eq]
      rw [ih h.2]

/-!
## Projection lemmas for the operations
-/

theorem keys_pushNeighbor (k o : Nat) (bs : List (Nat × Entry)) :
    (pushNeighbor k o bs).map Prod.fst = bs.map Prod.fst :=
  keys_mapUpdate _ _ _

theorem keys_newLine (a b : Nat) (s : GState) : keys (newLine a b s) = keys s := by
  unfold newLine
  split
  · split
    · rfl
    · simp only [keys, keys_pushNeighbor]
  · rfl

theorem newLine_totalBoxes (a b : Nat) (s : GState) :
    (newLine a b s).totalBoxes = s.totalBoxes := by
  unfold newLine
  split
  · split <;> rfl
  · rfl

theorem mem_newLine_domLines {p : Nat × Nat} (a b : Nat) (s : GState) :
    p ∈ (newLine a b s).domLines ↔
      p ∈ s.domLines ∨ (a ∈ keys s ∧ b ∈ keys s ∧ p = cp a b) := by
  unfold newLine
  split
  · rename_i hks
    split
    · rename_i hmem
      constructor
      · exact fun h => Or.inl h
      · rintro (h | ⟨_, _, rfl⟩)
        · exact h
        · exact hmem
    · simp only [List.mem_append, List.mem_singleton]
      constructor
      · rintro (h | rfl)
        · exact Or.inl h
        · exact Or.inr ⟨hks.1, hks.2, rfl⟩
      · rintro (h | ⟨_, _, rfl⟩)
        · exact Or.inl h
        · exact Or.inr rfl
  · rename_i hks
    constructor
    · exact fun h => Or.inl h
    · rintro (h | ⟨h1, h2, rfl⟩)
      · exact h
      · exact absurd ⟨h1, h2⟩ hks

theorem newLine_domLines_of_mem {a b : Nat} {s : GState}
    (ha : a ∈ keys s) (hb : b ∈ keys s) : cp a b ∈ (newLine a b s).domLines :=
  (mem_newLine_domLines a b s).mpr (Or.inr ⟨ha, hb, rfl⟩)

theorem mapFind_pushNeighbor_self {k o : Nat} {bs : List (Nat × Entry)} {e : Entry}
    (h : mapFind k bs = some e) :
    mapFind k (pushNeighbor k o bs) =
      some (if o ∈ e.lines then e else { e with lines := e.lines ++ [o] }) := by
  unfold pushNeighbor
  rw [mapFind_mapUpdate_self, h]
  rfl

theorem mapFind_pushNeighbor_ne {k k' o : Nat} (h : k' ≠ k) (bs : List (Nat × Entry)) :
    mapFind k' (pushNeighbor k o bs) = mapFind k' bs :=
  mapFind_mapUpdate_ne _ h _

theorem keys_deleteLine (a b : Nat) (s : GState) : keys (deleteLine a b s) = keys s := by
  unfold deleteLine
  simp only [keys, keys_mapUpdate]

theorem deleteLine_totalBoxes (a b : Nat) (s : GState) :
    (deleteLine a b s).totalBoxes = s.totalBoxes := rfl

theorem deleteLine_domLines (a b : Nat) (s : GState) :
    (deleteLine a b s).domLines = s.domLines.erase (a, b) := rfl

/-- Erasing, one by one, every element of a filtered-out sublist removes
exactly that sublist: the effect `deleteBox`'s loop has on `#lines`. -/
theorem foldl_erase_filter (q : Nat × Nat → Bool) :
    ∀ (L : List (Nat × Nat)),
      (L.filter q).foldl (fun l p => l.erase p) L = L.filter (fun x => ¬ q x) := by
  have haux : ∀ (ps : List (Nat × Nat)) (x : Nat × Nat) (l : List (Nat × Nat)),
      (∀ p ∈ ps, p ≠ x) →
      ps.foldl (fun l' p => l'.erase p) (x :: l) =
        x :: ps.foldl (fun l' p => l'.erase p) l := by
    intro ps
    induction ps with
    | nil => intro x l _; rfl
    | cons p rest ih =>
        intro x l h
        have hne : p ≠ x := h p (List.mem_cons_self _ _)
        simp only [List.foldl_cons]
        rw [List.erase_cons_tail (by simpa using fun he => hne he.symm)]
        exact ih x _ (fun p' hp' => h p' (List.mem_cons_of_mem _ hp'))
  intro L
  induction L with
  | nil => rfl
  | cons x rest ih =>
      by_cases hx : q x = true
      · rw [List.filter_cons_of_pos hx, List.filter_cons_of_neg (by simp [hx])]
        simp only [List.foldl_cons, List.erase_cons_head]
        exact ih
      · rw [List.filter_cons_of_neg hx, List.filter_cons_of_pos (by simp [hx])]
        rw [haux _ x rest (fun p hp => fun he =>
          hx (he ▸ (List.of_mem_filter hp)))]
        rw [ih]

theorem foldl_deleteLine_domLines (att : List (Nat × Nat)) :
    ∀ (s : GState),
      (att.foldl (fun st p => deleteLine p.1 p.2 st) s).domLines =
        att.foldl (fun l p => l.erase p) s.domLines := by
  induction att with
  | nil => intro s; rfl
  | cons p rest ih =>
      intro s
      simp only [List.foldl_cons]
      rw [ih, deleteLine_domLines]

theorem foldl_deleteLine_keys (att : List (Nat × Nat)) :
    ∀ (s : GState),
      keys (att.foldl (fun st p => deleteLine p.1 p.2 st) s) = keys s := by
  induction att with
  | nil => intro s; rfl
  | cons p rest ih =>
      intro s
      simp only [List.foldl_cons]
      rw [ih, keys_deleteLine]

theorem foldl_deleteLine_totalBoxes (att : List (Nat × Nat)) :
    ∀ (s : GState),
      (att.foldl (fun st p => deleteLine p.1 p.2 st) s).totalBoxes = s.totalBoxes := by
  induction att with
  | nil => intro s; rfl
  | cons p rest ih =>
      intro s
      simp only [List.foldl_cons]
      rw [ih, deleteLine_totalBoxes]

theorem deleteBox_domLines (n : Nat) (s : GState) :
    (deleteBox n s).domLines =
      s.domLines.filter (fun p => ¬(p.1 = n ∨ p.2 = n)) := by
  show ((getLinesAttached n s).foldl (fun st p => deleteLine p.1 p.2 st) s).domLines = _
  rw [foldl_deleteLine_domLines]
  have h := foldl_erase_filter (fun p => decide (p.1 = n ∨ p.2 = n)) s.domLines
  simp only [decide_eq_true_eq] at h
  exact h

theorem map_fst_filter_ne (n : Nat) :
    ∀ (l : List (Nat × Entry)),
      (l.filter (fun p => p.1 ≠ n)).map Prod.fst =
        (l.map Prod.fst).filter (fun k => k ≠ n) := by
  intro l
  induction l with
  | nil => rfl
  | cons p rest ih =>
      by_cases hp : p.1 = n
      · rw [List.filter_cons_of_neg (by simp [hp]), List.map_cons,
          List.filter_cons_of_neg (by simp [hp])]
        exact ih
      · rw [List.filter_cons_of_pos (by simp [hp]), List.map_cons, List.map_cons,
          List.filter_cons_of_pos (by simp [hp])]
        rw [ih]

theorem keys_deleteBox (n : Nat) (s : GState) :
    keys (deleteBox n s) = (keys s).filter (fun k => k ≠ n) := by
  show ((((getLinesAttached n s).foldl (fun st p => deleteLine p.1 p.2 st) s)).boxes.filter
      (fun p => p.1 ≠ n)).map Prod.fst = _
  rw [map_fst_filter_ne]
  have := foldl_deleteLine_keys (getLinesAttached n s) s
  unfold keys at this
  rw [this]
  rfl

theorem mapFind_deleteLine_other {a b c : Nat} (hca : c ≠ a) (hcb : c ≠ b)
    (s : GState) : mapFind c (deleteLine a b s).boxes = mapFind c s.boxes := by
  unfold deleteLine
  rw [mapFind_mapUpdate_ne _ hcb, mapFind_mapUpdate_ne _ hca]

theorem mapFind_deleteLine_left {a b : Nat} (hab : a ≠ b) (s : GState) :
    mapFind a (deleteLine a b s).boxes =
      (mapFind a s.boxes).map
        (fun e => { e with lines := e.lines.filter (fun id => id ≠ b) }) := by
  unfold deleteLine
  rw [mapFind_mapUpdate_ne _ hab, mapFind_mapUpdate_self]

theorem mapFind_deleteLine_right {a b : Nat} (hab : a ≠ b) (s : GState) :
    mapFind b (deleteLine a b s).boxes =
      (mapFind b s.boxes).map
        (fun e => { e with lines := e.lines.filter (fun id => id ≠ a) }) := by
  unfold deleteLine
  rw [mapFind_mapUpdate_self, mapFind_mapUpdate_ne _ (Ne.symm hab)]

/-!
## The invariant in lookup form
-/

theorem mem_keys_iff {k : Nat} {l : List (Nat × Entry)} :
    k ∈ l.map Prod.fst ↔ ∃ e, mapFind k l = some e := by
  constructor
  · exact mapFind_isSome
  · rintro ⟨e, he⟩
    exact List.mem_map.mpr ⟨(k, e), mapFind_mem he, rfl⟩

theorem forall_boxes_iff {l : List (Nat × Entry)} (hn : (l.map Prod.fst).Nodup)
    (P : Nat → Entry → Prop) :
    (∀ pa ∈ l, P pa.1 pa.2) ↔ (∀ k e, mapFind k l = some e → P k e) := by
  constructor
  · intro h k e he
    exact h (k, e) (mapFind_mem he)
  · intro h pa hpa
    exact h pa.1 pa.2 (mem_mapFind hn hpa)

theorem exists_boxes_iff {l : List (Nat × Entry)} (hn : (l.map Prod.fst).Nodup)
    (x : Nat) (P : Entry → Prop) :
    (∃ pa ∈ l, pa.1 = x ∧ P pa.2) ↔ (∃ e, mapFind x l = some e ∧ P e) := by
  constructor
  · rintro ⟨pa, hpa, rfl, hP⟩
    exact ⟨pa.2, mem_mapFind hn hpa, hP⟩
  · rintro ⟨e, he, hP⟩
    exact ⟨(x, e), mapFind_mem he, rfl, hP⟩

theorem storeInv_iff (s : GState) : StoreInv s ↔ StoreInvF s := by
  unfold StoreInv StoreInvF
  constructor
  · rintro ⟨hk, hnd, hcanon, hedge, hent, hlin⟩
    refine ⟨hk, hnd, hcanon, ?_, ?_, ?_⟩
    · intro p hp
      obtain ⟨_, _, h1, h2⟩ := hedge p hp
      exact ⟨(exists_boxes_iff hk _ _).mp h1, (exists_boxes_iff hk _ _).mp h2⟩
    · intro k e he
      exact hent (k, e) (mapFind_mem he)
    · intro k e he y hy ey hey hkey
      exact hlin (k, e) (mapFind_mem he) y hy ⟨(y, ey), mapFind_mem hey, rfl, hkey⟩
  · rintro ⟨hk, hnd, hcanon, hedge, hent, hlin⟩
    refine ⟨hk, hnd, hcanon, ?_, ?_, ?_⟩
    · intro p hp
      obtain ⟨h1, h2⟩ := hedge p hp
      refine ⟨?_, ?_, (exists_boxes_iff hk _ _).mpr h1, (exists_boxes_iff hk _ _).mpr h2⟩
      · exact mem_keys_iff.mpr ⟨h1.choose, h1.choose_spec.1⟩
      · exact mem_keys_iff.mpr ⟨h2.choose, h2.choose_spec.1⟩
    · intro pa hpa
      exact hent pa.1 pa.2 (mem_mapFind hk hpa)
    · intro pa hpa y hy hmut
      obtain ⟨pb, hpb, rfl, hkey⟩ := hmut
      exact hlin pa.1 pa.2 (mem_mapFind hk hpa) pb.1 hy pb.2 (mem_mapFind hk hpb) hkey

/-!
## Properties of the neighbour push
-/

theorem pushFun_box (o : Nat) (e : Entry) : (pushFun o e).box = e.box := by
  unfold pushFun; split <;> rfl

theorem mem_pushFun_self (o : Nat) (e : Entry) : o ∈ (pushFun o e).lines := by
  unfold pushFun
  split
  · assumption
  · simp

theorem mem_pushFun_iff {y o : Nat} (e : Entry) :
    y ∈ (pushFun o e).lines ↔ y ∈ e.lines ∨ y = o := by
  unfold pushFun
  split
  · rename_i h
    constructor
    · exact Or.inl
    · rintro (hy | rfl)
      · exact hy
      · exact h
  · simp

theorem pushFun_nodup {o : Nat} {e : Entry} (h : e.lines.Nodup) :
    (pushFun o e).lines.Nodup := by
  unfold pushFun
  split
  · exact h
  · rename_i ho
    simpa [List.nodup_append] using ⟨h, ho⟩

theorem pushFun_count {o : Nat} {e : Entry} (h : e.lines.Nodup) :
    (pushFun o e).lines.count o = 1 := by
  unfold pushFun
  split
  · rename_i ho
    exact List.count_eq_one_of_mem h ho
  · rename_i ho
    rw [List.count_append]
    rw [List.count_eq_zero_of_not_mem ho]
    simp

/-- Full description of a lookup after `newLine`'s two neighbour pushes. -/
theorem mapFind_push2 {a b x : Nat} {bs : List (Nat × Entry)} {e : Entry}
    (h : mapFind x bs = some e) :
    ∃ e', mapFind x (pushNeighbor b a (pushNeighbor a b bs)) = some e' ∧
      e'.box = e.box ∧
      (∀ y ∈ e.lines, y ∈ e'.lines) ∧
      (∀ y ∈ e'.lines, y ∈ e.lines ∨ (x = a ∧ y = b) ∨ (x = b ∧ y = a)) ∧
      (e.lines.Nodup → e'.lines.Nodup) ∧
      (x = a → b ∈ e'.lines) ∧ (x = b → a ∈ e'.lines) := by
  unfold pushNeighbor
  by_cases hxb : x = b
  · subst hxb
    rw [mapFind_mapUpdate_self]
    by_cases hxa : x = a
    · subst hxa
      rw [mapFind_mapUpdate_self, h]
      refine ⟨pushFun x (pushFun x e), rfl, by rw [pushFun_box, pushFun_box], ?_, ?_, ?_, ?_, ?_⟩
      · intro y hy
        exact (mem_pushFun_iff _).mpr (Or.inl ((mem_pushFun_iff _).mpr (Or.inl hy)))
      · intro y hy
        rcases (mem_pushFun_iff _).mp hy with hy | rfl
        · rcases (mem_pushFun_iff _).mp hy with hy | rfl
          · exact Or.inl hy
          · exact Or.inr (Or.inl ⟨rfl, rfl⟩)
        · exact Or.inr (Or.inl ⟨rfl, rfl⟩)
      · exact fun hn => pushFun_nodup (pushFun_nodup hn)
      · intro _
        exact (mem_pushFun_iff _).mpr (Or.inl (mem_pushFun_self _ _))
      · intro _
        exact mem_pushFun_self _ _
    · rw [mapFind_mapUpdate_ne _ (fun he => hxa he), h]
      refine ⟨pushFun a e, rfl, pushFun_box _ _, ?_, ?_, fun hn => pushFun_nodup hn, ?_, ?_⟩
      · intro y hy
        exact (mem_pushFun_iff _).mpr (Or.inl hy)
      · intro y hy
        rcases (mem_pushFun_iff _).mp hy with hy | rfl
        · exact Or.inl hy
        · exact Or.inr (Or.inr ⟨rfl, rfl⟩)
      · intro he
        exact absurd he hxa
      · intro _
        exact mem_pushFun_self _ _
  · rw [mapFind_mapUpdate_ne _ hxb]
    by_cases hxa : x = a
    · subst hxa
      rw [mapFind_mapUpdate_self, h]
      refine ⟨pushFun b e, rfl, pushFun_box _ _, ?_, ?_, fun hn => pushFun_nodup hn, ?_, ?_⟩
      · intro y hy
        exact (mem_pushFun_iff _).mpr (Or.inl hy)
      · intro y hy
        rcases (mem_pushFun_iff _).mp hy with hy | rfl
        · exact Or.inl hy
        · exact Or.inr (Or.inl ⟨rfl, rfl⟩)
      · intro _
        exact mem_pushFun_self _ _
      · intro he
        exact absurd he hxb
    · rw [mapFind_mapUpdate_ne _ hxa, h]
      exact ⟨e, rfl, rfl, fun y hy => hy, fun y hy => Or.inl hy, id,
        fun he => absurd he hxa, fun he => absurd he hxb⟩

theorem mapFind_push2_none {a b x : Nat} {bs : List (Nat × Entry)}
    (h : mapFind x bs = none) :
    mapFind x (pushNeighbor b a (pushNeighbor a b bs)) = none := by
  apply mapFind_eq_none
  rw [keys_pushNeighbor, keys_pushNeighbor]
  intro hx
  rcases mem_keys_iff.mp hx with ⟨e, he⟩
  rw [h] at he
  exact Option.noConfusion he

theorem storeInvF_newLine (a b : Nat) {s : GState} (h : StoreInvF s) :
    StoreInvF (newLine a b s) := by
  obtain ⟨hk, hnd, hcanon, hedge, hent, hlin⟩ := h
  unfold newLine
  split
  · rename_i hks
    split
    · exact ⟨hk, hnd, hcanon, hedge, hent, hlin⟩
    · rename_i hnew
      obtain ⟨ea, hea⟩ := mapFind_isSome hks.1
      obtain ⟨eb, heb⟩ := mapFind_isSome hks.2
      have hkeys2 : ∀ (st : GState), st.boxes = pushNeighbor b a (pushNeighbor a b s.boxes) →
          keys st = keys s := by
        intro st hst
        show st.boxes.map Prod.fst = _
        rw [hst, keys_pushNeighbor, keys_pushNeighbor]
        rfl
      have hkeq : (pushNeighbor b a (pushNeighbor a b s.boxes)).map Prod.fst = keys s := by
        rw [keys_pushNeighbor, keys_pushNeighbor]; rfl
      refine ⟨?_, ?_, ?_, ?_, ?_, ?_⟩
      · show (pushNeighbor b a (pushNeighbor a b s.boxes)).map Prod.fst |>.Nodup
        rw [hkeq]; exact hk
      · show (s.domLines ++ [cp a b]).Nodup
        simp only [List.nodup_append, List.nodup_singleton, true_and]
        exact ⟨hnd, by simpa using hnew⟩
      · intro p hp
        rcases List.mem_append.mp hp with hp | hp
        · exact hcanon p hp
        · rw [List.mem_singleton.mp hp]
          exact cp_fst_le_snd a b
      · intro p hp
        rcases List.mem_append.mp hp with hp | hp
        · obtain ⟨⟨e1, he1, hm1⟩, ⟨e2, he2, hm2⟩⟩ := hedge p hp
          obtain ⟨e1', he1', _, hmono1, _, _, _, _⟩ := mapFind_push2 (a := a) (b := b) he1
          obtain ⟨e2', he2', _, hmono2, _, _, _, _⟩ := mapFind_push2 (a := a) (b := b) he2
          exact ⟨⟨e1', he1', hmono1 _ hm1⟩, ⟨e2', he2', hmono2 _ hm2⟩⟩
        · rw [List.mem_singleton.mp hp]
          obtain ⟨ea', hea', _, _, _, _, hab, _⟩ := mapFind_push2 (a := a) (b := b) hea
          obtain ⟨eb', heb', _, _, _, _, _, hba⟩ := mapFind_push2 (a := a) (b := b) heb
          have h1 : ∃ e, mapFind a (pushNeighbor b a (pushNeighbor a b s.boxes)) = some e ∧ b ∈ e.lines :=
            ⟨ea', hea', hab rfl⟩
          have h2 : ∃ e, mapFind b (pushNeighbor b a (pushNeighbor a b s.boxes)) = some e ∧ a ∈ e.lines :=
            ⟨eb', heb', hba rfl⟩
          unfold cp
          split
          · exact ⟨h1, h2⟩
          · exact ⟨h2, h1⟩
      · intro k e' he'
        rcases he : mapFind k s.boxes with _ | e
        · rw [mapFind_push2_none (a := a) (b := b) he] at he'
          exact Option.noConfusion he'
        · obtain ⟨e'', he'', hbox, _, _, hnod, _, _⟩ := mapFind_push2 (a := a) (b := b) he
          rw [he'] at he''
          injection he'' with he''
          subst he''
          obtain ⟨h1, h2, h3⟩ := hent k e he
          exact ⟨hnod h1, by rw [hbox]; exact h2, h3⟩
      · intro k e' he' y hy ey' hey' hkey'
        rcases he : mapFind k s.boxes with _ | e
        · rw [mapFind_push2_none (a := a) (b := b) he] at he'
          exact Option.noConfusion he'
        · obtain ⟨e'', he'', _, _, hinv, _, _, _⟩ := mapFind_push2 (a := a) (b := b) he
          rw [he'] at he''
          injection he'' with he''
          subst he''
          rcases hinv y hy with hy' | ⟨rfl, rfl⟩ | ⟨rfl, rfl⟩
          · rcases hey : mapFind y s.boxes with _ | ey
            · rw [mapFind_push2_none (a := a) (b := b) hey] at hey'
              exact Option.noConfusion hey'
            · obtain ⟨ey'', hey'', _, _, hinvy, _, _, _⟩ := mapFind_push2 (a := a) (b := b) hey
              rw [hey'] at hey''
              injection hey'' with hey''
              subst hey''
              rcases hinvy k hkey' with hk' | ⟨rfl, rfl⟩ | ⟨rfl, rfl⟩
              · exact List.mem_append_left _ (hlin k e he y hy' ey hey hk')
              · exact List.mem_append_right _ (List.mem_singleton.mpr (cp_comm _ _))
              · exact List.mem_append_right _ (List.mem_singleton.mpr rfl)
          · exact List.mem_append_right _ (List.mem_singleton.mpr rfl)
          · exact List.mem_append_right _ (List.mem_singleton.mpr (cp_comm _ _))
  · exact ⟨hk, hnd, hcanon, hedge, hent, hlin⟩

/-- Full description of a lookup after `deleteLine`'s two list filters. -/
theorem mapFind_del2 {a b x : Nat} {bs : List (Nat × Entry)} {e : Entry}
    (h : mapFind x bs = some e) :
    ∃ e', mapFind x
        (mapUpdate b (fun e => { e with lines := e.lines.filter (fun id => id ≠ a) })
          (mapUpdate a (fun e => { e with lines := e.lines.filter (fun id => id ≠ b) }) bs)) =
        some e' ∧
      e'.box = e.box ∧
      (∀ y, y ∈ e'.lines ↔ (y ∈ e.lines ∧ ¬(x = a ∧ y = b) ∧ ¬(x = b ∧ y = a))) ∧
      (e.lines.Nodup → e'.lines.Nodup) := by
  by_cases hxb : x = b
  · subst hxb
    rw [mapFind_mapUpdate_self]
    by_cases hxa : x = a
    · subst hxa
      rw [mapFind_mapUpdate_self, h]
      refine ⟨_, rfl, rfl, ?_, ?_⟩
      · intro y
        simp only [List.mem_filter, decide_eq_true_eq]
        tauto
      · intro hn
        exact (hn.filter _).filter _
    · rw [mapFind_mapUpdate_ne _ (fun he => hxa he), h]
      refine ⟨_, rfl, rfl, ?_, fun hn => hn.filter _⟩
      intro y
      simp only [List.mem_filter, decide_eq_true_eq]
      tauto
  · rw [mapFind_mapUpdate_ne _ hxb]
    by_cases hxa : x = a
    · subst hxa
      rw [mapFind_mapUpdate_self, h]
      refine ⟨_, rfl, rfl, ?_, fun hn => hn.filter _⟩
      intro y
      simp only [List.mem_filter, decide_eq_true_eq]
      tauto
    · rw [mapFind_mapUpdate_ne _ hxa, h]
      exact ⟨e, rfl, rfl,
        fun y => ⟨fun hy => ⟨hy, fun hc => hxa hc.1, fun hc => hxb hc.1⟩, fun hy => hy.1⟩,
        id⟩

theorem mapFind_deleteLine_none {a b x : Nat} {s : GState}
    (h : mapFind x s.boxes = none) : mapFind x (deleteLine a b s).boxes = none := by
  apply mapFind_eq_none
  have : keys (deleteLine a b s) = keys s := keys_deleteLine a b s
  show x ∉ (deleteLine a b s).boxes.map Prod.fst
  rw [show (deleteLine a b s).boxes.map Prod.fst = keys (deleteLine a b s) from rfl, this]
  intro hx
  rcases mem_keys_iff.mp hx with ⟨e, he⟩
  rw [h] at he
  exact Option.noConfusion he

theorem storeInvF_deleteLine {a b : Nat} (hab : a ≤ b) {s : GState}
    (h : StoreInvF s) : StoreInvF (deleteLine a b s) := by
  obtain ⟨hk, hnd, hcanon, hedge, hent, hlin⟩ := h
  have hkeq : keys (deleteLine a b s) = keys s := keys_deleteLine a b s
  refine ⟨?_, ?_, ?_, ?_, ?_, ?_⟩
  · rw [hkeq]; exact hk
  · exact hnd.erase _
  · intro p hp
    exact hcanon p (List.mem_of_mem_erase hp)
  · intro p hp
    rw [deleteLine_domLines, List.Nodup.mem_erase_iff hnd] at hp
    obtain ⟨hpne, hpmem⟩ := hp
    obtain ⟨⟨e1, he1, hm1⟩, ⟨e2, he2, hm2⟩⟩ := hedge p hpmem
    have hple : p.1 ≤ p.2 := hcanon p hpmem
    obtain ⟨e1', he1', _, hiff1, _⟩ := mapFind_del2 (a := a) (b := b) he1
    obtain ⟨e2', he2', _, hiff2, _⟩ := mapFind_del2 (a := a) (b := b) he2
    constructor
    · refine ⟨e1', he1', (hiff1 p.2).mpr ⟨hm1, ?_, ?_⟩⟩
      · rintro ⟨h1, h2⟩
        exact hpne (Prod.ext h1 h2)
      · rintro ⟨h1, h2⟩
        have hab2 : a = b := le_antisymm hab (h1 ▸ h2 ▸ hple)
        refine hpne ?_
        rcases p with ⟨p1, p2⟩
        dsimp only at h1 h2
        simp only [Prod.mk.injEq]
        omega
    · refine ⟨e2', he2', (hiff2 p.1).mpr ⟨hm2, ?_, ?_⟩⟩
      · rintro ⟨h1, h2⟩
        have hab2 : a = b := le_antisymm hab (h1 ▸ h2 ▸ hple)
        refine hpne ?_
        rcases p with ⟨p1, p2⟩
        dsimp only at h1 h2
        simp only [Prod.mk.injEq]
        omega
      · rintro ⟨h1, h2⟩
        exact hpne (Prod.ext h2 h1)
  · intro k e' he'
    rcases he : mapFind k s.boxes with _ | e
    · rw [mapFind_deleteLine_none (a := a) (b := b) he] at he'
      exact Option.noConfusion he'
    · obtain ⟨e'', he'', hbox, _, hnod⟩ := mapFind_del2 (a := a) (b := b) he
      rw [show mapFind k (deleteLine a b s).boxes =
          mapFind k (mapUpdate b (fun e => { e with lines := e.lines.filter (fun id => id ≠ a) })
            (mapUpdate a (fun e => { e with lines := e.lines.filter (fun id => id ≠ b) })
              s.boxes)) from rfl] at he'
      rw [he'] at he''
      injection he'' with he''
      subst he''
      obtain ⟨h1, h2, h3⟩ := hent k e he
      exact ⟨hnod h1, by rw [hbox]; exact h2, h3⟩
  · intro k e' he' y hy ey' hey' hkey'
    rcases he : mapFind k s.boxes with _ | e
    · rw [mapFind_deleteLine_none (a := a) (b := b) he] at he'
      exact Option.noConfusion he'
    · obtain ⟨e'', he'', _, hiff, _⟩ := mapFind_del2 (a := a) (b := b) he
      rw [show mapFind k (deleteLine a b s).boxes =
          mapFind k (mapUpdate b (fun e => { e with lines := e.lines.filter (fun id => id ≠ a) })
            (mapUpdate a (fun e => { e with lines := e.lines.filter (fun id => id ≠ b) })
              s.boxes)) from rfl] at he'
      rw [he'] at he''
      injection he'' with he''
      subst he''
      obtain ⟨hym, hn1, hn2⟩ := (hiff y).mp hy
      rcases hey : mapFind y s.boxes with _ | ey
      · have hnone := mapFind_deleteLine_none (a := a) (b := b) hey
        rw [hey'] at hnone
        exact Option.noConfusion hnone
      · obtain ⟨ey'', hey'', _, hiffy, _⟩ := mapFind_del2 (a := a) (b := b) hey
        rw [show mapFind y (deleteLine a b s).boxes =
            mapFind y (mapUpdate b (fun e => { e with lines := e.lines.filter (fun id => id ≠ a) })
              (mapUpdate a (fun e => { e with lines := e.lines.filter (fun id => id ≠ b) })
                s.boxes)) from rfl] at hey'
        rw [hey'] at hey''
        injection hey'' with hey''
        subst hey''
        obtain ⟨hkm, _, _⟩ := (hiffy k).mp hkey'
        have hcp : cp k y ∈ s.domLines := hlin k e he y hym ey hey hkm
        show cp k y ∈ s.domLines.erase (a, b)
        rw [List.Nodup.mem_erase_iff hnd]
        refine ⟨?_, hcp⟩
        intro hceq
        rw [← cp_eq_self hab] at hceq
        rcases cp_eq_iff.mp hceq with ⟨h1, h2⟩ | ⟨h1, h2⟩
        · exact hn1 ⟨h1, h2⟩
        · exact hn2 ⟨h1, h2⟩

theorem mapFind_filter_ne_of {n k : Nat} {l : List (Nat × Entry)} {e : Entry}
    (hk : (l.map Prod.fst).Nodup) (hkn : k ≠ n) (h : mapFind k l = some e) :
    mapFind k (l.filter (fun p => p.1 ≠ n)) = some e := by
  have hm : (k, e) ∈ l := mapFind_mem h
  have hm2 : (k, e) ∈ l.filter (fun p => p.1 ≠ n) :=
    List.mem_filter.mpr ⟨hm, by simpa using hkn⟩
  refine mem_mapFind ?_ hm2
  rw [map_fst_filter_ne]
  exact hk.filter _

theorem mapFind_filter_ne_inv {n k : Nat} {l : List (Nat × Entry)} {e : Entry}
    (hk : (l.map Prod.fst).Nodup)
    (h : mapFind k (l.filter (fun p => p.1 ≠ n)) = some e) :
    mapFind k l = some e ∧ k ≠ n := by
  have hm := mapFind_mem h
  obtain ⟨hm1, hm2⟩ := List.mem_filter.mp hm
  exact ⟨mem_mapFind hk hm1, by simpa using hm2⟩

theorem storeInvF_foldl_deleteLine :
    ∀ {att : List (Nat × Nat)}, (∀ p ∈ att, p.1 ≤ p.2) → ∀ {s : GState},
      StoreInvF s → StoreInvF (att.foldl (fun st p => deleteLine p.1 p.2 st) s) := by
  intro att
  induction att with
  | nil => intro _ s h; exact h
  | cons p rest ih =>
      intro hc s h
      simp only [List.foldl_cons]
      exact ih (fun q hq => hc q (List.mem_cons_of_mem _ hq))
        (storeInvF_deleteLine (hc p (List.mem_cons_self _ _)) h)

theorem storeInvF_deleteBox (n : Nat) {s : GState} (h : StoreInvF s) :
    StoreInvF (deleteBox n s) := by
  have hatt : ∀ p ∈ getLinesAttached n s, p.1 ≤ p.2 :=
    fun p hp => h.2.2.1 p (List.mem_of_mem_filter hp)
  have h1 := storeInvF_foldl_deleteLine hatt h
  obtain ⟨hk1, hnd1, hcan1, hedge1, hlast⟩ := h1
  obtain ⟨hent1, hlin1⟩ := hlast
  have hkeyss1 : keys ((getLinesAttached n s).foldl (fun st p => deleteLine p.1 p.2 st) s) = keys s :=
    foldl_deleteLine_keys _ s
  have hdom : (deleteBox n s).domLines = s.domLines.filter (fun p => ¬(p.1 = n ∨ p.2 = n)) :=
    deleteBox_domLines n s
  have hdom2 : (deleteBox n s).domLines =
      ((getLinesAttached n s).foldl (fun st p => deleteLine p.1 p.2 st) s).domLines := rfl
  have hboxes : (deleteBox n s).boxes =
      ((getLinesAttached n s).foldl (fun st p => deleteLine p.1 p.2 st) s).boxes.filter
        (fun p => p.1 ≠ n) := rfl
  refine ⟨?_, ?_, ?_, ?_, ?_, ?_⟩
  · show (keys (deleteBox n s)).Nodup
    rw [keys_deleteBox]
    exact h.1.filter _
  · rw [hdom2]; exact hnd1
  · intro p hp
    rw [hdom2] at hp
    exact hcan1 p hp
  · intro p hp
    have hpn : ¬(p.1 = n ∨ p.2 = n) := by
      rw [hdom] at hp
      have := List.of_mem_filter hp
      simpa using this
    push_neg at hpn
    have hp1 : p ∈ ((getLinesAttached n s).foldl (fun st p => deleteLine p.1 p.2 st) s).domLines := by
      rw [← hdom2]; exact hp
    obtain ⟨⟨e1, he1, hm1⟩, ⟨e2, he2, hm2⟩⟩ := hedge1 p hp1
    rw [hboxes]
    exact ⟨⟨e1, mapFind_filter_ne_of hk1 hpn.1 he1, hm1⟩,
      ⟨e2, mapFind_filter_ne_of hk1 hpn.2 he2, hm2⟩⟩
  · intro k e he
    rw [hboxes] at he
    obtain ⟨he, _⟩ := mapFind_filter_ne_inv hk1 he
    exact hent1 k e he
  · intro k e he y hy ey hey hkey
    rw [hboxes] at he
    obtain ⟨he, _⟩ := mapFind_filter_ne_inv hk1 he
    rw [hboxes] at hey
    obtain ⟨hey, _⟩ := mapFind_filter_ne_inv hk1 hey
    have := hlin1 k e he y hy ey hey hkey
    rw [hdom2]
    exact this

theorem mapFind_append_some {k : Nat} {e : Entry} {l2 : List (Nat × Entry)} :
    ∀ {l : List (Nat × Entry)}, mapFind k l = some e → mapFind k (l ++ l2) = some e := by
  intro l
  induction l with
  | nil => intro h; exact absurd h (by simp [mapFind])
  | cons p rest ih =>
      obtain ⟨k', v'⟩ := p
      intro h
      by_cases hk : k' = k
      · simp only [mapFind, if_pos hk] at h ⊢
        exact h
      · simp only [mapFind, if_neg hk] at h ⊢
        exact ih h

theorem mapFind_append_single {k rid : Nat} {v : Entry} :
    ∀ {l : List (Nat × Entry)} {e : Entry},
      mapFind k (l ++ [(rid, v)]) = some e →
      mapFind k l = some e ∨ (k = rid ∧ e = v ∧ mapFind k l = none) := by
  intro l
  induction l with
  | nil =>
      intro e h
      simp only [List.nil_append, mapFind] at h
      split at h
      · rename_i hk
        injection h with h
        exact Or.inr ⟨hk.symm, h.symm, rfl⟩
      · exact absurd h (by simp [mapFind])
  | cons p rest ih =>
      obtain ⟨k', v'⟩ := p
      intro e h
      by_cases hk : k' = k
      · simp only [List.cons_append, mapFind, if_pos hk] at h
        exact Or.inl (by simp [mapFind, hk, h])
      · simp only [List.cons_append, mapFind, if_neg hk] at h
        rcases ih h with h' | ⟨h1, h2, h3⟩
        · exact Or.inl (by simpa [mapFind, hk] using h')
        · exact Or.inr ⟨h1, h2, by simpa [mapFind, hk] using h3⟩

theorem storeInvF_createFresh (x y : Int) (c : String) {s : GState}
    (h : StoreInvF s) : StoreInvF (createNewBlock x y c none s).1 := by
  obtain ⟨hk, hnd, hcanon, hedge, hent, hlin⟩ := h
  have hfresh : (s.totalBoxes + 1) ∉ keys s := by
    intro hmem
    obtain ⟨e, he⟩ := mapFind_isSome hmem
    have := (hent _ e he).2.2
    omega
  have hset : mapSet (s.totalBoxes + 1) ⟨⟨c, x, y, "#f1f1f1"⟩, []⟩ s.boxes =
      s.boxes ++ [(s.totalBoxes + 1, ⟨⟨c, x, y, "#f1f1f1"⟩, []⟩)] :=
    mapSet_of_not_mem hfresh
  show StoreInvF
    { s with
        boxes := mapSet (s.totalBoxes + 1) ⟨⟨c, x, y, "#f1f1f1"⟩, []⟩ s.boxes,
        totalBoxes := s.totalBoxes + 1 }
  rw [hset]
  refine ⟨?_, hnd, hcanon, ?_, ?_, ?_⟩
  · show ((s.boxes ++ [(s.totalBoxes + 1, _)]).map Prod.fst).Nodup
    rw [List.map_append]
    simp only [List.map_cons, List.map_nil]
    rw [List.nodup_append]
    exact ⟨hk, List.nodup_singleton _,
      fun a ha hb => hfresh (List.mem_singleton.mp hb ▸ ha)⟩
  · intro p hp
    obtain ⟨⟨e1, he1, hm1⟩, ⟨e2, he2, hm2⟩⟩ := hedge p hp
    exact ⟨⟨e1, mapFind_append_some he1, hm1⟩, ⟨e2, mapFind_append_some he2, hm2⟩⟩
  · intro k e he
    rcases mapFind_append_single he with he' | ⟨rfl, rfl, _⟩
    · obtain ⟨h1, h2, h3⟩ := hent k e he'
      refine ⟨h1, h2, ?_⟩
      show k ≤ s.totalBoxes + 1
      omega
    · exact ⟨List.nodup_nil, by simp, le_refl _⟩
  · intro k e he z hz ez hez hkz
    rcases mapFind_append_single he with he' | ⟨rfl, rfl, _⟩
    · rcases mapFind_append_single hez with hez' | ⟨rfl, rfl, _⟩
      · exact hlin k e he' z hz ez hez' hkz
      · exact absurd hkz (List.not_mem_nil _)
    · exact absurd hz (List.not_mem_nil _)

/-- Invariant preservation for any single-entry update that keeps the
`lines` array and keeps the color nonempty (recolor, text edit). -/
theorem storeInvF_updateBox (k : Nat) (f : Entry → Entry)
    (hfl : ∀ e, (f e).lines = e.lines)
    (hfc : ∀ e, e.box.color ≠ "" → (f e).box.color ≠ "")
    {s : GState} (h : StoreInvF s) :
    StoreInvF { s with boxes := mapUpdate k f s.boxes } := by
  obtain ⟨hk, hnd, hcanon, hedge, hent, hlin⟩ := h
  have hfwd : ∀ x e, mapFind x s.boxes = some e →
      ∃ e', mapFind x (mapUpdate k f s.boxes) = some e' ∧ e'.lines = e.lines := by
    intro x e he
    by_cases hx : x = k
    · subst hx
      rw [mapFind_mapUpdate_self, he]
      exact ⟨f e, rfl, hfl e⟩
    · rw [mapFind_mapUpdate_ne _ hx, he]
      exact ⟨e, rfl, rfl⟩
  have hback : ∀ x e', mapFind x (mapUpdate k f s.boxes) = some e' →
      ∃ e, mapFind x s.boxes = some e ∧ e'.lines = e.lines ∧
        (e'.box.color = e.box.color ∨ e' = f e) := by
    intro x e' he'
    by_cases hx : x = k
    · subst hx
      rw [mapFind_mapUpdate_self] at he'
      rcases he : mapFind x s.boxes with _ | e
      · rw [he] at he'
        exact Option.noConfusion he'
      · rw [he] at he'
        injection he' with he'
        exact ⟨e, rfl, by rw [← he']; exact hfl e, Or.inr he'.symm⟩
    · rw [mapFind_mapUpdate_ne _ hx] at he'
      exact ⟨e', he', rfl, Or.inl rfl⟩
  refine ⟨?_, hnd, hcanon, ?_, ?_, ?_⟩
  · show ((mapUpdate k f s.boxes).map Prod.fst).Nodup
    rw [keys_mapUpdate]
    exact hk
  · intro p hp
    obtain ⟨⟨e1, he1, hm1⟩, ⟨e2, he2, hm2⟩⟩ := hedge p hp
    obtain ⟨e1', he1', hl1⟩ := hfwd _ _ he1
    obtain ⟨e2', he2', hl2⟩ := hfwd _ _ he2
    exact ⟨⟨e1', he1', hl1 ▸ hm1⟩, ⟨e2', he2', hl2 ▸ hm2⟩⟩
  · intro x e' he'
    obtain ⟨e, he, hl, hcol⟩ := hback _ _ he'
    obtain ⟨h1, h2, h3⟩ := hent x e he
    refine ⟨hl ▸ h1, ?_, h3⟩
    rcases hcol with hcol | rfl
    · rw [hcol]; exact h2
    · exact hfc e h2
  · intro x e' he' z hz ez' hez' hxz
    obtain ⟨e, he, hl, _⟩ := hback _ _ he'
    obtain ⟨ez, hez, hlz, _⟩ := hback _ _ hez'
    exact hlin x e he z (hl ▸ hz) ez hez (hlz ▸ hxz)

theorem storeInvF_setBoxColor (k : Nat) {c : String} (hc : c ≠ "") {s : GState}
    (h : StoreInvF s) : StoreInvF (setBoxColor k c s) :=
  storeInvF_updateBox k (fun e => { e with box := { e.box with color := c } })
    (fun _ => rfl) (fun _ _ => hc) h

theorem storeInvF_editContent (k : Nat) (c : String) {s : GState}
    (h : StoreInvF s) : StoreInvF (editContent k c s) :=
  storeInvF_updateBox k (fun e => { e with box := { e.box with content := c } })
    (fun _ => rfl) (fun _ he => he) h

theorem storeInvF_initState {b : Box} (hc : b.color ≠ "") :
    StoreInvF (initState b) := by
  refine ⟨?_, ?_, ?_, ?_, ?_, ?_⟩
  · simp [initState, keys]
  · simp [initState]
  · intro p hp
    simp [initState] at hp
  · intro p hp
    simp [initState] at hp
  · intro k e he
    simp only [initState, mapFind] at he
    split at he
    · injection he with he
      subst he
      rename_i hk
      subst hk
      exact ⟨List.nodup_nil, hc, Nat.le_refl _⟩
    · exact Option.noConfusion he
  · intro k e he z hz
    simp only [initState, mapFind] at he
    split at he
    · injection he with he
      subst he
      exact absurd hz (List.not_mem_nil _)
    · exact Option.noConfusion he

/-!
## Analysis of `upload`
-/

theorem mapFind_mapSet_self (k : Nat) (v : Entry) :
    ∀ (l : List (Nat × Entry)), mapFind k (mapSet k v l) = some v := by
  intro l
  induction l with
  | nil => simp [mapSet, mapFind]
  | cons p rest ih =>
      obtain ⟨k', v'⟩ := p
      by_cases hk : k' = k <;> simp [mapSet, mapFind, hk, ih]

theorem mapFind_mapSet_ne {k k' : Nat} (v : Entry) (h : k' ≠ k) :
    ∀ (l : List (Nat × Entry)), mapFind k' (mapSet k v l) = mapFind k' l := by
  intro l
  induction l with
  | nil => simp [mapSet, mapFind, Ne.symm h]
  | cons p rest ih =>
      obtain ⟨k₀, v₀⟩ := p
      by_cases hk : k₀ = k
      · have h₀ : k₀ ≠ k' := fun he => h (he ▸ hk ▸ rfl)
        simp [mapSet, mapFind, hk, h₀, Ne.symm h]
      · by_cases hk' : k₀ = k' <;> simp [mapSet, mapFind, hk, hk', ih, h]

theorem keys_mapSet_nodup {k : Nat} {v : Entry} {l : List (Nat × Entry)}
    (h : (l.map Prod.fst).Nodup) : ((mapSet k v l).map Prod.fst).Nodup := by
  by_cases hk : k ∈ l.map Prod.fst
  · rw [keys_mapSet_mem hk]
    exact h
  · rw [mapSet_of_not_mem hk, List.map_append]
    simp only [List.map_cons, List.map_nil]
    rw [List.nodup_append]
    exact ⟨h, List.nodup_singleton _,
      fun a ha hb => hk (List.mem_singleton.mp hb ▸ ha)⟩

theorem jsDedup_subset : ∀ {l : List Nat} {y : Nat}, y ∈ jsDedup l → y ∈ l := by
  intro l
  induction l with
  | nil => intro y h; exact absurd h (List.not_mem_nil _)
  | cons x rest ih =>
      intro y h
      rcases List.mem_cons.mp h with rfl | h
      · exact List.mem_cons_self _ _
      · exact List.mem_cons_of_mem _ (ih (List.mem_of_mem_filter h))

theorem jsDedup_nodup : ∀ (l : List Nat), (jsDedup l).Nodup := by
  intro l
  induction l with
  | nil => exact List.nodup_nil
  | cons x rest ih =>
      simp only [jsDedup, List.nodup_cons]
      constructor
      · intro hx
        have := List.of_mem_filter hx
        simp at this
      · exact ih.filter _

theorem jsDedup_eq_self : ∀ {l : List Nat}, l.Nodup → jsDedup l = l := by
  intro l
  induction l with
  | nil => intro _; rfl
  | cons x rest ih =>
      intro h
      rw [List.nodup_cons] at h
      simp only [jsDedup]
      rw [ih h.2, List.filter_eq_self.mpr]
      intro y hy
      simp only [decide_eq_true_eq]
      intro he
      exact h.1 (he ▸ hy)

theorem importBox_domLines (st : GState) (sb : SnapBox) :
    (importBox st sb).domLines = st.domLines := by
  unfold importBox createNewBlock setBoxColor
  rcases sb.id with _ | rid <;>
    rcases sb.style.bind SnapStyle.backgroundColor with _ | col <;>
    simp <;> split <;> rfl

theorem importBox_totalBoxes (st : GState) (sb : SnapBox) :
    (importBox st sb).totalBoxes =
      match sb.id with
      | some rid => max st.totalBoxes rid
      | none => st.totalBoxes + 1 := by
  unfold importBox createNewBlock setBoxColor
  rcases sb.id with _ | rid <;>
    rcases sb.style.bind SnapStyle.backgroundColor with _ | col <;>
    simp <;> split <;> rfl

theorem importBox_boxes (st : GState) (sb : SnapBox) :
    (importBox st sb).boxes =
      mapUpdate (importRid st sb)
        (fun e => { e with lines := (sb.lines.map jsDedup).getD [] })
        ((match sb.style.bind SnapStyle.backgroundColor with
          | some col =>
              if col = "" then id
              else mapUpdate (importRid st sb)
                (fun e => { e with box := { e.box with color := col } })
          | none => id)
          (mapSet (importRid st sb)
            ⟨⟨sb.content.getD "New Box",
              (sb.style.bind SnapStyle.left).getD 0,
              (sb.style.bind SnapStyle.top).getD 0, "#f1f1f1"⟩, []⟩ st.boxes)) := by
  unfold importBox createNewBlock setBoxColor importRid
  rcases sb.id with _ | rid <;>
    rcases sb.style.bind SnapStyle.backgroundColor with _ | col <;>
    simp <;> split <;> rfl

theorem importBox_keys_nodup {st : GState} (sb : SnapBox)
    (h : (keys st).Nodup) : (keys (importBox st sb)).Nodup := by
  show ((importBox st sb).boxes.map Prod.fst).Nodup
  rw [importBox_boxes, keys_mapUpdate]
  rcases hcol : sb.style.bind SnapStyle.backgroundColor with _ | col
  · simp only [id]
    exact keys_mapSet_nodup h
  · by_cases hc : col = ""
    · simp only [hc, if_pos rfl, id]
      exact keys_mapSet_nodup h
    · simp only [if_neg hc]
      rw [keys_mapUpdate]
      exact keys_mapSet_nodup h

theorem importBox_lookup {st : GState} {sb : SnapBox} {x : Nat} {e' : Entry}
    (h : mapFind x (importBox st sb).boxes = some e') :
    (x ≠ importRid st sb ∧ mapFind x st.boxes = some e') ∨
    (x = importRid st sb ∧ e'.lines = (sb.lines.map jsDedup).getD [] ∧
      e'.box.color ≠ "") := by
  rw [importBox_boxes] at h
  by_cases hx : x = importRid st sb
  · subst hx
    rw [mapFind_mapUpdate_self] at h
    right
    refine ⟨rfl, ?_⟩
    rcases hcol : sb.style.bind SnapStyle.backgroundColor with _ | col
    · simp only [hcol, id_eq] at h
      rw [mapFind_mapSet_self] at h
      injection h with h
      subst h
      exact ⟨rfl, by simp⟩
    · by_cases hc : col = ""
      · simp only [hcol, if_pos hc, id_eq] at h
        rw [mapFind_mapSet_self] at h
        injection h with h
        subst h
        exact ⟨rfl, by simp⟩
      · simp only [hcol, if_neg hc] at h
        rw [mapFind_mapUpdate_self, mapFind_mapSet_self] at h
        injection h with h
        subst h
        exact ⟨rfl, hc⟩
  · rw [mapFind_mapUpdate_ne _ hx] at h
    left
    refine ⟨hx, ?_⟩
    rcases hcol : sb.style.bind SnapStyle.backgroundColor with _ | col
    · simp only [hcol, id_eq] at h
      rw [mapFind_mapSet_ne _ hx] at h
      exact h
    · by_cases hc : col = ""
      · simp only [hcol, if_pos hc, id_eq] at h
        rw [mapFind_mapSet_ne _ hx] at h
        exact h
      · simp only [hcol, if_neg hc] at h
        rw [mapFind_mapUpdate_ne _ hx, mapFind_mapSet_ne _ hx] at h
        exact h

theorem storeInvF_iff_core (s : GState) :
    StoreInvF s ↔ StoreInvCore s ∧
      (∀ k e, mapFind k s.boxes = some e → ∀ y ∈ e.lines,
        ∀ ey, mapFind y s.boxes = some ey → k ∈ ey.lines → cp k y ∈ s.domLines) := by
  unfold StoreInvF StoreInvCore
  tauto

theorem storeInvCore_newLine (a b : Nat) {s : GState} (h : StoreInvCore s) :
    StoreInvCore (newLine a b s) := by
  obtain ⟨hk, hnd, hcanon, hedge, hent⟩ := h
  unfold newLine
  split
  · rename_i hks
    split
    · exact ⟨hk, hnd, hcanon, hedge, hent⟩
    · rename_i hnew
      obtain ⟨ea, hea⟩ := mapFind_isSome hks.1
      obtain ⟨eb, heb⟩ := mapFind_isSome hks.2
      have hkeq : (pushNeighbor b a (pushNeighbor a b s.boxes)).map Prod.fst = keys s := by
        rw [keys_pushNeighbor, keys_pushNeighbor]; rfl
      refine ⟨?_, ?_, ?_, ?_, ?_⟩
      · show (pushNeighbor b a (pushNeighbor a b s.boxes)).map Prod.fst |>.Nodup
        rw [hkeq]; exact hk
      · show (s.domLines ++ [cp a b]).Nodup
        simp only [List.nodup_append, List.nodup_singleton, true_and]
        exact ⟨hnd, by simpa using hnew⟩
      · intro p hp
        rcases List.mem_append.mp hp with hp | hp
        · exact hcanon p hp
        · rw [List.mem_singleton.mp hp]
          exact cp_fst_le_snd a b
      · intro p hp
        rcases List.mem_append.mp hp with hp | hp
        · obtain ⟨⟨e1, he1, hm1⟩, ⟨e2, he2, hm2⟩⟩ := hedge p hp
          obtain ⟨e1', he1', _, hmono1, _, _, _, _⟩ := mapFind_push2 (a := a) (b := b) he1
          obtain ⟨e2', he2', _, hmono2, _, _, _, _⟩ := mapFind_push2 (a := a) (b := b) he2
          exact ⟨⟨e1', he1', hmono1 _ hm1⟩, ⟨e2', he2', hmono2 _ hm2⟩⟩
        · rw [List.mem_singleton.mp hp]
          obtain ⟨ea', hea', _, _, _, _, hab, _⟩ := mapFind_push2 (a := a) (b := b) hea
          obtain ⟨eb', heb', _, _, _, _, _, hba⟩ := mapFind_push2 (a := a) (b := b) heb
          have h1 : ∃ e, mapFind a (pushNeighbor b a (pushNeighbor a b s.boxes)) = some e ∧ b ∈ e.lines :=
            ⟨ea', hea', hab rfl⟩
          have h2 : ∃ e, mapFind b (pushNeighbor b a (pushNeighbor a b s.boxes)) = some e ∧ a ∈ e.lines :=
            ⟨eb', heb', hba rfl⟩
          unfold cp
          split
          · exact ⟨h1, h2⟩
          · exact ⟨h2, h1⟩
      · intro k e' he'
        rcases he : mapFind k s.boxes with _ | e
        · rw [mapFind_push2_none (a := a) (b := b) he] at he'
          exact Option.noConfusion he'
        · obtain ⟨e'', he'', hbox, _, _, hnod, _, _⟩ := mapFind_push2 (a := a) (b := b) he
          rw [he'] at he''
          injection he'' with he''
          subst he''
          obtain ⟨h1, h2, h3⟩ := hent k e he
          exact ⟨hnod h1, by rw [hbox]; exact h2, h3⟩
  · exact ⟨hk, hnd, hcanon, hedge, hent⟩

/-- The second `upload` pass is exactly a `newLine` fold over `todoPairs`. -/
theorem importLines_eq :
    ∀ (bs : List SnapBox) (st : GState),
      bs.foldl importLines st =
        (todoPairs bs).foldl (fun st2 q => newLine q.1 q.2 st2) st := by
  intro bs
  induction bs with
  | nil => intro st; rfl
  | cons sb rest ih =>
      intro st
      simp only [List.foldl_cons, todoPairs, List.foldl_append]
      rw [ih]
      congr 1
      unfold importLines sbPairs
      rcases sb.id with _ | i
      · rfl
      · rw [List.foldl_map]

theorem importBox_tb_mono (st : GState) (sb : SnapBox) :
    st.totalBoxes ≤ (importBox st sb).totalBoxes := by
  rw [importBox_totalBoxes]
  rcases sb.id with _ | rid
  · simp
  · simp only []
    omega

theorem importBox_ent {st : GState} (sb : SnapBox)
    (hent : ∀ k e, mapFind k st.boxes = some e →
      e.lines.Nodup ∧ e.box.color ≠ "" ∧ k ≤ st.totalBoxes) :
    ∀ k e, mapFind k (importBox st sb).boxes = some e →
      e.lines.Nodup ∧ e.box.color ≠ "" ∧ k ≤ (importBox st sb).totalBoxes := by
  intro k e he
  have htb := importBox_tb_mono st sb
  have hrid : importRid st sb ≤ (importBox st sb).totalBoxes := by
    rw [importBox_totalBoxes]
    unfold importRid
    rcases sb.id with _ | rid
    · simp
    · simp only []
      omega
  rcases importBox_lookup he with ⟨_, he'⟩ | ⟨rfl, hl, hc⟩
  · obtain ⟨h1, h2, h3⟩ := hent k e he'
    exact ⟨h1, h2, le_trans h3 htb⟩
  · refine ⟨?_, hc, hrid⟩
    rw [hl]
    rcases sb.lines with _ | l
    · exact List.nodup_nil
    · exact jsDedup_nodup l

theorem pass1_basic :
    ∀ (bs : List SnapBox) (st : GState),
      (keys st).Nodup →
      st.domLines = [] →
      (∀ k e, mapFind k st.boxes = some e →
        e.lines.Nodup ∧ e.box.color ≠ "" ∧ k ≤ st.totalBoxes) →
      (keys (bs.foldl importBox st)).Nodup ∧
      (bs.foldl importBox st).domLines = [] ∧
      (∀ k e, mapFind k (bs.foldl importBox st).boxes = some e →
        e.lines.Nodup ∧ e.box.color ≠ "" ∧ k ≤ (bs.foldl importBox st).totalBoxes) ∧
      st.totalBoxes ≤ (bs.foldl importBox st).totalBoxes := by
  intro bs
  induction bs with
  | nil => intro st h1 h2 h3; exact ⟨h1, h2, h3, le_refl _⟩
  | cons sb rest ih =>
      intro st h1 h2 h3
      simp only [List.foldl_cons]
      obtain ⟨g1, g2, g3, g4⟩ := ih (importBox st sb)
        (importBox_keys_nodup sb h1)
        (by rw [importBox_domLines]; exact h2)
        (importBox_ent sb h3)
      exact ⟨g1, g2, g3, le_trans (importBox_tb_mono st sb) g4⟩

theorem pass1_id_le :
    ∀ (bs : List SnapBox) (st : GState) (sb : SnapBox) (i : Nat),
      sb ∈ bs → sb.id = some i → i ≤ (bs.foldl importBox st).totalBoxes := by
  have hmono : ∀ (bs : List SnapBox) (st : GState),
      st.totalBoxes ≤ (bs.foldl importBox st).totalBoxes := by
    intro bs
    induction bs with
    | nil => intro st; exact le_refl _
    | cons sb rest ih =>
        intro st
        simp only [List.foldl_cons]
        exact le_trans (importBox_tb_mono st sb) (ih _)
  intro bs
  induction bs with
  | nil => intro st sb i h; exact absurd h (List.not_mem_nil _)
  | cons sb0 rest ih =>
      intro st sb i hmem hid
      simp only [List.foldl_cons]
      rcases List.mem_cons.mp hmem with rfl | hmem
      · refine le_trans ?_ (hmono rest (importBox st sb))
        rw [importBox_totalBoxes, hid]
        simp only []
        omega
      · exact ih _ sb i hmem hid

theorem pass1_prov (P : List (Nat × Nat)) :
    ∀ (bs : List SnapBox) (st : GState),
      (∀ sb ∈ bs, sb.id.isSome) →
      (∀ sb ∈ bs, ∀ q ∈ sbPairs sb, q ∈ P) →
      (∀ k e, mapFind k st.boxes = some e → ∀ y ∈ e.lines, (k, y) ∈ P) →
      ∀ k e, mapFind k (bs.foldl importBox st).boxes = some e →
        ∀ y ∈ e.lines, (k, y) ∈ P := by
  intro bs
  induction bs with
  | nil => intro st _ _ h; exact h
  | cons sb rest ih =>
      intro st hid hP h
      simp only [List.foldl_cons]
      refine ih (importBox st sb)
        (fun x hx => hid x (List.mem_cons_of_mem _ hx))
        (fun x hx => hP x (List.mem_cons_of_mem _ hx)) ?_
      intro k e he y hy
      rcases importBox_lookup he with ⟨_, he'⟩ | ⟨rfl, hl, _⟩
      · exact h k e he' y hy
      · rcases hsb : sb.id with _ | i
        · have := hid sb (List.mem_cons_self _ _)
          rw [hsb] at this
          exact absurd this (by simp)
        · have hy' : y ∈ sb.lines.getD [] := by
            rw [hl] at hy
            rcases hls : sb.lines with _ | l
            · rw [hls] at hy
              exact absurd hy (List.not_mem_nil _)
            · rw [hls] at hy
              exact jsDedup_subset hy
          have hrid : importRid st sb = i := by
            unfold importRid
            rw [hsb]
          refine hP sb (List.mem_cons_self _ _) _ ?_
          unfold sbPairs
          rw [hsb]
          rw [hrid]
          exact List.mem_map.mpr ⟨y, hy', rfl⟩

theorem pass2_fold :
    ∀ (todo : List (Nat × Nat)) (st : GState),
      StoreInvCore st →
      (∀ k e, mapFind k st.boxes = some e → ∀ y ∈ e.lines, y ∈ keys st →
        cp k y ∈ st.domLines ∨ ∃ q ∈ todo, cp q.1 q.2 = cp k y) →
      StoreInvF (todo.foldl (fun st2 q => newLine q.1 q.2 st2) st) := by
  intro todo
  induction todo with
  | nil =>
      intro st hcore hlin
      rw [storeInvF_iff_core]
      refine ⟨hcore, ?_⟩
      intro k e he y hy ey hey _
      have hyk : y ∈ keys st := mem_keys_iff.mpr ⟨ey, hey⟩
      rcases hlin k e he y hy hyk with h | ⟨q, hq, _⟩
      · exact h
      · exact absurd hq (List.not_mem_nil _)
  | cons q rest ih =>
      intro st hcore hlin
      simp only [List.foldl_cons]
      refine ih (newLine q.1 q.2 st) (storeInvCore_newLine q.1 q.2 hcore) ?_
      intro k e' he' y hy hyk
      have hkeq : keys (newLine q.1 q.2 st) = keys st := keys_newLine _ _ _
      have hyk' : y ∈ keys st := by rw [← hkeq]; exact hyk
      by_cases hks : q.1 ∈ keys st ∧ q.2 ∈ keys st
      · by_cases hmem : cp q.1 q.2 ∈ st.domLines
        · have hst : newLine q.1 q.2 st = st := by
            unfold newLine
            rw [if_pos hks, if_pos hmem]
          rw [hst] at he' ⊢
          rcases hlin k e' he' y hy hyk' with h | ⟨q', hq', hcpq⟩
          · exact Or.inl h
          · rcases List.mem_cons.mp hq' with rfl | hq'
            · exact Or.inl (hcpq ▸ hmem)
            · exact Or.inr ⟨q', hq', hcpq⟩
        · have hst : newLine q.1 q.2 st =
              { st with
                  boxes := pushNeighbor q.2 q.1 (pushNeighbor q.1 q.2 st.boxes),
                  domLines := st.domLines ++ [cp q.1 q.2] } := by
            unfold newLine
            rw [if_pos hks, if_neg hmem]
          rw [hst] at he' ⊢
          rcases he : mapFind k st.boxes with _ | e
          · rw [show mapFind k
                ({ st with
                    boxes := pushNeighbor q.2 q.1 (pushNeighbor q.1 q.2 st.boxes),
                    domLines := st.domLines ++ [cp q.1 q.2] } : GState).boxes =
                mapFind k (pushNeighbor q.2 q.1 (pushNeighbor q.1 q.2 st.boxes)) from rfl,
              mapFind_push2_none (a := q.1) (b := q.2) he] at he'
            exact Option.noConfusion he'
          · obtain ⟨e'', he'', _, _, hinv, _, _, _⟩ := mapFind_push2 (a := q.1) (b := q.2) he
            rw [show mapFind k
                ({ st with
                    boxes := pushNeighbor q.2 q.1 (pushNeighbor q.1 q.2 st.boxes),
                    domLines := st.domLines ++ [cp q.1 q.2] } : GState).boxes =
                mapFind k (pushNeighbor q.2 q.1 (pushNeighbor q.1 q.2 st.boxes)) from rfl] at he'
            rw [he'] at he''
            injection he'' with he''
            subst he''
            rcases hinv y hy with hy' | ⟨rfl, rfl⟩ | ⟨rfl, rfl⟩
            · rcases hlin k e he y hy' hyk' with h | ⟨q', hq', hcpq⟩
              · exact Or.inl (List.mem_append_left _ h)
              · rcases List.mem_cons.mp hq' with rfl | hq'
                · exact Or.inl (hcpq ▸ List.mem_append_right _ (List.mem_singleton.mpr rfl))
                · exact Or.inr ⟨q', hq', hcpq⟩
            · exact Or.inl (List.mem_append_right _ (List.mem_singleton.mpr rfl))
            · exact Or.inl (List.mem_append_right _ (List.mem_singleton.mpr (cp_comm _ _)))
      · have hst : newLine q.1 q.2 st = st := by
          unfold newLine
          rw [if_neg hks]
        rw [hst] at he' ⊢
        rcases hlin k e' he' y hy hyk' with h | ⟨q', hq', hcpq⟩
        · exact Or.inl h
        · rcases List.mem_cons.mp hq' with rfl | hq'
          · exfalso
            have hkk : k ∈ keys st := mem_keys_iff.mpr ⟨e', he'⟩
            rcases cp_eq_iff.mp hcpq with ⟨h1, h2⟩ | ⟨h1, h2⟩
            · exact hks ⟨h1 ▸ hkk, h2 ▸ hyk'⟩
            · exact hks ⟨h1 ▸ hyk', h2 ▸ hkk⟩
          · exact Or.inr ⟨q', hq', hcpq⟩

theorem mem_todoPairs_of :
    ∀ {bs : List SnapBox} {sb : SnapBox}, sb ∈ bs →
      ∀ q ∈ sbPairs sb, q ∈ todoPairs bs := by
  intro bs
  induction bs with
  | nil => intro sb h; exact absurd h (List.not_mem_nil _)
  | cons sb0 rest ih =>
      intro sb hmem q hq
      rcases List.mem_cons.mp hmem with rfl | hmem
      · exact List.mem_append_left _ hq
      · exact List.mem_append_right _ (ih hmem q hq)

theorem storeInvF_upload (data : Option (List SnapBox)) (s : GState)
    (hid : ∀ sb ∈ data.getD [], sb.id.isSome) :
    StoreInvF (upload data s) := by
  show StoreInvF
    ((data.getD []).foldl importLines ((data.getD []).foldl importBox clearState))
  obtain ⟨g1, g2, g3, _⟩ := pass1_basic (data.getD []) clearState
    (by simp [clearState, keys])
    rfl
    (by
      intro k e he
      simp [clearState, mapFind] at he)
  have hprov := pass1_prov (todoPairs (data.getD [])) (data.getD []) clearState hid
    (fun sb hsb q hq => mem_todoPairs_of hsb q hq)
    (by
      intro k e he
      simp [clearState, mapFind] at he)
  rw [importLines_eq]
  apply pass2_fold
  · refine ⟨g1, by rw [g2]; exact List.nodup_nil, ?_, ?_, g3⟩
    · intro p hp
      rw [g2] at hp
      exact absurd hp (List.not_mem_nil _)
    · intro p hp
      rw [g2] at hp
      exact absurd hp (List.not_mem_nil _)
  · intro k e he y hy _
    exact Or.inr ⟨(k, y), hprov k e he y hy, rfl⟩

/-- Every state reachable through the editor operations, with imports
restricted to snapshots whose boxes all carry ids, satisfies the store
invariant. -/
theorem storeInv_reachableW {s : GState} (h : ReachableW s) : StoreInv s := by
  rw [storeInv_iff]
  induction h with
  | init b hc => exact storeInvF_initState hc
  | create x y h ih => exact storeInvF_createFresh x y "New Box" ih
  | line a b h ih => exact storeInvF_newLine a b ih
  | delLine p hp h ih => exact storeInvF_deleteLine (ih.2.2.1 p hp) ih
  | delBox n h ih => exact storeInvF_deleteBox n ih
  | color k c hc h ih => exact storeInvF_setBoxColor k hc ih
  | edit k c h ih => exact storeInvF_editContent k c ih
  | imp data hid h ih => exact storeInvF_upload data _ hid

/-!
## Round trip: `upload` after `download`
-/

theorem foldl_newLine_keys (todo : List (Nat × Nat)) :
    ∀ (st : GState),
      keys (todo.foldl (fun st2 q => newLine q.1 q.2 st2) st) = keys st := by
  induction todo with
  | nil => intro st; rfl
  | cons q rest ih =>
      intro st
      simp only [List.foldl_cons]
      rw [ih, keys_newLine]

theorem newLine_mapFind_box (a b k : Nat) (st : GState) :
    (mapFind k (newLine a b st).boxes).map (fun e => e.box) =
      (mapFind k st.boxes).map (fun e => e.box) := by
  unfold newLine
  split
  · split
    · rfl
    · rcases he : mapFind k st.boxes with _ | e
      · rw [show ({ st with
            boxes := pushNeighbor b a (pushNeighbor a b st.boxes),
            domLines := st.domLines ++ [cp a b] } : GState).boxes =
            pushNeighbor b a (pushNeighbor a b st.boxes) from rfl,
          mapFind_push2_none (a := a) (b := b) he]
      · obtain ⟨e', he', hbox, _⟩ := mapFind_push2 (a := a) (b := b) he
        rw [show ({ st with
            boxes := pushNeighbor b a (pushNeighbor a b st.boxes),
            domLines := st.domLines ++ [cp a b] } : GState).boxes =
            pushNeighbor b a (pushNeighbor a b st.boxes) from rfl,
          he']
        simp [hbox]
  · rfl

theorem foldl_newLine_box (todo : List (Nat × Nat)) :
    ∀ (st : GState) (k : Nat),
      (mapFind k (todo.foldl (fun st2 q => newLine q.1 q.2 st2) st).boxes).map (fun e => e.box) =
        (mapFind k st.boxes).map (fun e => e.box) := by
  induction todo with
  | nil => intro st k; rfl
  | cons q rest ih =>
      intro st k
      simp only [List.foldl_cons]
      rw [ih, newLine_mapFind_box]

theorem foldl_newLine_mem_domLines (todo : List (Nat × Nat)) :
    ∀ (st : GState) (p : Nat × Nat),
      p ∈ (todo.foldl (fun st2 q => newLine q.1 q.2 st2) st).domLines ↔
        p ∈ st.domLines ∨
          ∃ q ∈ todo, q.1 ∈ keys st ∧ q.2 ∈ keys st ∧ cp q.1 q.2 = p := by
  induction todo with
  | nil =>
      intro st p
      simp
  | cons q rest ih =>
      intro st p
      simp only [List.foldl_cons]
      rw [ih, keys_newLine, mem_newLine_domLines]
      simp only [List.mem_cons]
      constructor
      · rintro ((h | ⟨h1, h2, rfl⟩) | ⟨q', hq', hk1, hk2, rfl⟩)
        · exact Or.inl h
        · exact Or.inr ⟨q, Or.inl rfl, h1, h2, rfl⟩
        · exact Or.inr ⟨q', Or.inr hq', hk1, hk2, rfl⟩
      · rintro (h | ⟨q', (rfl | hq'), hk1, hk2, rfl⟩)
        · exact Or.inl (Or.inl h)
        · exact Or.inl (Or.inr ⟨hk1, hk2, rfl⟩)
        · exact Or.inr ⟨q', hq', hk1, hk2, rfl⟩

theorem download_eq (s : GState) : download s = s.boxes.map snapOfEntry := rfl

theorem gstate_eq_of_fields {s t : GState} (h1 : s.boxes = t.boxes)
    (h2 : s.domLines = t.domLines) (h3 : s.totalBoxes = t.totalBoxes) : s = t := by
  cases s
  cases t
  simp_all

theorem importBox_snap {st : GState} {pa : Nat × Entry}
    (hcol : pa.2.box.color ≠ "") (hk : pa.1 ∉ keys st) (hnod : pa.2.lines.Nodup) :
    importBox st (snapOfEntry pa) =
      { st with
          boxes := st.boxes ++ [importedEntry pa],
          totalBoxes := max st.totalBoxes pa.1 } := by
  have hboxes := importBox_boxes st (snapOfEntry pa)
  have hrid : importRid st (snapOfEntry pa) = pa.1 := rfl
  have hdom := importBox_domLines st (snapOfEntry pa)
  have htb := importBox_totalBoxes st (snapOfEntry pa)
  refine gstate_eq_of_fields ?_ hdom ?_
  · rw [hboxes, hrid]
    rw [show (snapOfEntry pa).style.bind SnapStyle.backgroundColor = some pa.2.box.color from rfl]
    simp only [if_neg hcol]
    rw [show (snapOfEntry pa).content.getD "New Box" = exportContent pa.2.box.content pa.1 from rfl,
      show ((snapOfEntry pa).style.bind SnapStyle.left).getD 0 = pa.2.box.left from rfl,
      show ((snapOfEntry pa).style.bind SnapStyle.top).getD 0 = pa.2.box.top from rfl]
    rw [mapSet_of_not_mem hk, mapUpdate_append_not_mem hk, mapUpdate_append_not_mem hk]
    rw [show ((snapOfEntry pa).lines.map jsDedup).getD [] = jsDedup pa.2.lines from rfl,
      jsDedup_eq_self hnod]
    rfl
  · rw [htb]
    rfl

theorem pass1_download :
    ∀ (l : List (Nat × Entry)) (st : GState),
      (l.map Prod.fst).Nodup →
      (∀ pa ∈ l, pa.2.box.color ≠ "" ∧ pa.2.lines.Nodup) →
      (∀ k ∈ l.map Prod.fst, k ∉ keys st) →
      ((l.map snapOfEntry).foldl importBox st).boxes = st.boxes ++ l.map importedEntry ∧
      ((l.map snapOfEntry).foldl importBox st).domLines = st.domLines := by
  intro l
  induction l with
  | nil => intro st _ _ _; simp
  | cons pa rest ih =>
      intro st hnd hvals hfresh
      simp only [List.map_cons, List.foldl_cons]
      rw [importBox_snap (hvals pa (List.mem_cons_self _ _)).1
        (hfresh pa.1 (by simp)) (hvals pa (List.mem_cons_self _ _)).2]
      simp only [List.map_cons, List.nodup_cons] at hnd
      obtain ⟨g1, g2⟩ := ih _ hnd.2
        (fun q hq => hvals q (List.mem_cons_of_mem _ hq))
        (by
          intro k hk
          show k ∉ keys { st with boxes := st.boxes ++ [importedEntry pa],
                                  totalBoxes := max st.totalBoxes pa.1 }
          show k ∉ (st.boxes ++ [importedEntry pa]).map Prod.fst
          rw [List.map_append]
          simp only [List.mem_append]
          push_neg
          constructor
          · exact hfresh k (List.mem_cons_of_mem _ hk)
          · show k ∉ [importedEntry pa].map Prod.fst
            simp only [List.map_cons, List.map_nil, List.mem_singleton]
            intro he
            exact hnd.1 (he ▸ hk))
      refine ⟨?_, g2⟩
      rw [g1, List.append_assoc]
      rfl

theorem todoPairs_download :
    ∀ (l : List (Nat × Entry)) {q : Nat × Nat},
      q ∈ todoPairs (l.map snapOfEntry) ↔
        ∃ pa ∈ l, pa.1 = q.1 ∧ q.2 ∈ pa.2.lines := by
  intro l
  induction l with
  | nil => intro q; simp [todoPairs]
  | cons pa rest ih =>
      intro q
      simp only [List.map_cons, todoPairs, List.mem_append, List.mem_cons]
      constructor
      · rintro (h | h)
        · unfold sbPairs snapOfEntry at h
          simp only [Option.getD_some] at h
          rcases List.mem_map.mp h with ⟨y, hy, rfl⟩
          exact ⟨pa, Or.inl rfl, rfl, hy⟩
        · obtain ⟨pa', hpa', h1, h2⟩ := ih.mp h
          exact ⟨pa', Or.inr hpa', h1, h2⟩
      · rintro ⟨pa', (rfl | hpa'), h1, h2⟩
        · left
          unfold sbPairs snapOfEntry
          simp only [Option.getD_some]
          exact List.mem_map.mpr ⟨q.2, h2, Prod.ext h1 rfl⟩
        · exact Or.inr (ih.mpr ⟨pa', hpa', h1, h2⟩)

theorem cp_self (a : Nat) : cp a a = (a, a) := by
  unfold cp
  rw [if_pos (le_refl a)]

theorem cp_cases (a b : Nat) : cp a b = (a, b) ∨ cp a b = (b, a) := by
  unfold cp
  split
  · exact Or.inl rfl
  · exact Or.inr rfl

theorem pushFun_idem (o : Nat) (e : Entry) :
    pushFun o (pushFun o e) = pushFun o e := by
  show (if o ∈ (pushFun o e).lines then pushFun o e else _) = pushFun o e
  rw [if_pos (mem_pushFun_self o e)]

theorem newLine_idem (a b : Nat) (s : GState) :
    newLine a b (newLine a b s) = newLine a b s := by
  by_cases hks : a ∈ keys s ∧ b ∈ keys s
  · by_cases hmem : cp a b ∈ s.domLines
    · have hst : newLine a b s = s := by
        unfold newLine
        rw [if_pos hks, if_pos hmem]
      rw [hst, hst]
    · have hst : newLine a b s =
          { s with
              boxes := pushNeighbor b a (pushNeighbor a b s.boxes),
              domLines := s.domLines ++ [cp a b] } := by
        unfold newLine
        rw [if_pos hks, if_neg hmem]
      rw [hst]
      unfold newLine
      rw [if_pos, if_pos]
      · exact List.mem_append_right _ (List.mem_singleton.mpr rfl)
      · have hkeq : keys { s with
            boxes := pushNeighbor b a (pushNeighbor a b s.boxes),
            domLines := s.domLines ++ [cp a b] } = keys s := by
          show (pushNeighbor b a (pushNeighbor a b s.boxes)).map Prod.fst = _
          rw [keys_pushNeighbor, keys_pushNeighbor]
          rfl
        rw [hkeq]
        exact hks
  · have hst : newLine a b s = s := by
      unfold newLine
      rw [if_neg hks]
    rw [hst, hst]

theorem newLine_comm_absorb (a b : Nat) (s : GState) :
    newLine b a (newLine a b s) = newLine a b s := by
  by_cases hks : a ∈ keys s ∧ b ∈ keys s
  · by_cases hmem : cp a b ∈ s.domLines
    · have hst : newLine a b s = s := by
        unfold newLine
        rw [if_pos hks, if_pos hmem]
      rw [hst]
      unfold newLine
      rw [if_pos ⟨hks.2, hks.1⟩, if_pos (cp_comm b a ▸ hmem)]
    · have hst : newLine a b s =
          { s with
              boxes := pushNeighbor b a (pushNeighbor a b s.boxes),
              domLines := s.domLines ++ [cp a b] } := by
        unfold newLine
        rw [if_pos hks, if_neg hmem]
      rw [hst]
      unfold newLine
      rw [if_pos, if_pos]
      · rw [cp_comm b a]
        exact List.mem_append_right _ (List.mem_singleton.mpr rfl)
      · have hkeq : keys { s with
            boxes := pushNeighbor b a (pushNeighbor a b s.boxes),
            domLines := s.domLines ++ [cp a b] } = keys s := by
          show (pushNeighbor b a (pushNeighbor a b s.boxes)).map Prod.fst = _
          rw [keys_pushNeighbor, keys_pushNeighbor]
          rfl
        rw [hkeq]
        exact ⟨hks.2, hks.1⟩
  · have hst : newLine a b s = s := by
      unfold newLine
      rw [if_neg hks]
    rw [hst]
    unfold newLine
    rw [if_neg (fun hc => hks ⟨hc.2, hc.1⟩)]

theorem foldl_newLine_totalBoxes (todo : List (Nat × Nat)) :
    ∀ (st : GState),
      (todo.foldl (fun st2 q => newLine q.1 q.2 st2) st).totalBoxes = st.totalBoxes := by
  induction todo with
  | nil => intro st; rfl
  | cons q rest ih =>
      intro st
      simp only [List.foldl_cons]
      rw [ih, newLine_totalBoxes]

theorem keys_map_importedEntry :
    ∀ (l : List (Nat × Entry)),
      (l.map importedEntry).map Prod.fst = l.map Prod.fst := by
  intro l
  induction l with
  | nil => rfl
  | cons pa rest ih =>
      simp only [List.map_cons]
      rw [ih]
      rfl

theorem mapFind_map_importedEntry {k : Nat} {e : Entry} :
    ∀ {l : List (Nat × Entry)}, mapFind k l = some e →
      mapFind k (l.map importedEntry) =
        some ⟨⟨exportContent e.box.content k, e.box.left, e.box.top, e.box.color⟩,
          e.lines⟩ := by
  intro l
  induction l with
  | nil => intro h; exact absurd h (by simp [mapFind])
  | cons pa rest ih =>
      obtain ⟨k', v'⟩ := pa
      intro h
      by_cases hk : k' = k
      · simp only [mapFind, if_pos hk] at h
        injection h with h
        subst h
        subst hk
        simp [mapFind, importedEntry]
      · simp only [mapFind, if_neg hk] at h
        simp only [List.map_cons]
        rw [show importedEntry (k', v') =
          (k', ⟨⟨exportContent v'.box.content k', v'.box.left, v'.box.top, v'.box.color⟩,
            v'.lines⟩) from rfl]
        simp only [mapFind, if_neg hk]
        exact ih h

theorem keys_download :
    ∀ (l : List (Nat × Entry)),
      (l.map snapOfEntry).map SnapBox.id = (l.map Prod.fst).map some := by
  intro l
  induction l with
  | nil => rfl
  | cons pa rest ih =>
      simp only [List.map_cons]
      rw [ih]
      rfl

/-!
## The claims
-/

/-- C3: for every node `n`, `deleteBox n` removes exactly the line
elements incident to `n` and no others, and removes `n` itself while
leaving every other node present (in order); in particular, deleting
node 2 of the path 1-2-3 leaves nodes 1 and 3 with zero edges. -/
theorem c3_deleteBox_frame :
    (∀ (n : Nat) (s : GState),
      keys (deleteBox n s) = (keys s).filter (fun k => k ≠ n) ∧
      (deleteBox n s).domLines = s.domLines.filter (fun p => ¬(p.1 = n ∨ p.2 = n))) ∧
    keys (deleteBox 2 path123) = [1, 3] ∧
    (deleteBox 2 path123).domLines = [] := by
  refine ⟨fun n s => ⟨keys_deleteBox n s, deleteBox_domLines n s⟩, ?_, ?_⟩
  · decide
  · decide

/-- C5 counterexample: importing a document whose `boxes` field is
missing (or null) is not rejected and not atomic in the claimed sense:
the prior graph (boxes 1-2 with the edge `1_2`) is destroyed and the
empty graph installed. -/
theorem c5_counterexample :
    upload none (newLine 1 2 st2) ≠ newLine 1 2 st2 ∧
    keys (newLine 1 2 st2) = [1, 2] ∧
    keys (upload none (newLine 1 2 st2)) = [] ∧
    (upload none (newLine 1 2 st2)).domLines = [] := by
  refine ⟨?_, ?_, ?_, ?_⟩ <;> decide

/-- C5 amended: `upload` performs no validation of the parsed document
and never consults or preserves the prior graph: the result is a
function of the document alone, and a document without a usable `boxes`
array installs the cleared state (no boxes, no lines, allocator 0).
Only a JSON parse failure (which throws before any mutation) leaves the
prior state intact. -/
theorem c5_uploadClears :
    (∀ (data : Option (List SnapBox)) (s t : GState), upload data s = upload data t) ∧
    (∀ s : GState, upload none s = clearState) ∧
    (∀ s : GState, upload (some []) s = clearState) := by
  exact ⟨fun _ _ _ => rfl, fun _ => rfl, fun _ => rfl⟩

/-- C6: `deleteLine` on the element `"a_b"` is pair-exact: it removes
`b` from `a`'s neighbour list and `a` from `b`'s, leaves every other
node's entry untouched, and removes no other line element. -/
theorem c6_disconnectPairExact (a b : Nat) (s : GState) (hab : a ≠ b) :
    (∀ c, c ≠ a → c ≠ b → mapFind c (deleteLine a b s).boxes = mapFind c s.boxes) ∧
    mapFind a (deleteLine a b s).boxes =
      (mapFind a s.boxes).map
        (fun e => { e with lines := e.lines.filter (fun id => id ≠ b) }) ∧
    mapFind b (deleteLine a b s).boxes =
      (mapFind b s.boxes).map
        (fun e => { e with lines := e.lines.filter (fun id => id ≠ a) }) ∧
    (∀ p ∈ s.domLines, p ≠ (a, b) → p ∈ (deleteLine a b s).domLines) := by
  refine ⟨fun c h1 h2 => mapFind_deleteLine_other h1 h2 s,
    mapFind_deleteLine_left hab s, mapFind_deleteLine_right hab s, ?_⟩
  intro p hp hne
  rw [deleteLine_domLines]
  exact (List.mem_erase_of_ne hne).mpr hp

/-- C6 witness: deleting the line `1_2` of the path 1-2-3 leaves node
3's entry untouched, filters exactly `2` from node 1's list and `1`
from node 2's, and keeps the line `2_3`. -/
theorem c6_witness :
    mapFind 3 (deleteLine 1 2 path123).boxes = mapFind 3 path123.boxes ∧
    mapFind 1 (deleteLine 1 2 path123).boxes =
      (mapFind 1 path123.boxes).map
        (fun e => { e with lines := e.lines.filter (fun id => id ≠ 2) }) ∧
    (2, 3) ∈ (deleteLine 1 2 path123).domLines := by
  have h := c6_disconnectPairExact 1 2 path123 (by decide)
  exact ⟨h.1 3 (by decide) (by decide), h.2.1,
    h.2.2.2 (2, 3) (by decide) (by decide)⟩

/-- C7 counterexample: `newLine` has no self-edge guard: connecting the
seed box to itself creates the line element `"1_1"` and records 1 in
its own neighbour list, so `connect(a, a)` is not a no-op. -/
theorem c7_counterexample :
    newLine 1 1 st0 ≠ st0 ∧
    (newLine 1 1 st0).domLines = [(1, 1)] ∧
    (mapFind 1 (newLine 1 1 st0).boxes).map (fun e => e.lines) = some [1] := by
  refine ⟨?_, ?_, ?_⟩ <;> decide

/-- C7 amended: a self-connect request on an existing box raises no
error, but instead of being a no-op it creates the self-loop element
`"a_a"` (when absent) and appends `a` once to `a`'s own neighbour
list; repeating the request is a no-op. -/
theorem c7_selfConnect (a : Nat) (s : GState) (ha : a ∈ keys s) :
    ((a, a) ∉ s.domLines →
      (newLine a a s).domLines = s.domLines ++ [(a, a)] ∧
      ∀ ea, mapFind a s.boxes = some ea →
        mapFind a (newLine a a s).boxes =
          some (if a ∈ ea.lines then ea else { ea with lines := ea.lines ++ [a] })) ∧
    newLine a a (newLine a a s) = newLine a a s := by
  constructor
  · intro hmem
    have hst : newLine a a s =
        { s with
            boxes := pushNeighbor a a (pushNeighbor a a s.boxes),
            domLines := s.domLines ++ [cp a a] } := by
      unfold newLine
      rw [if_pos ⟨ha, ha⟩, if_neg (by rw [cp_self]; exact hmem)]
    rw [hst]
    constructor
    · show s.domLines ++ [cp a a] = s.domLines ++ [(a, a)]
      rw [cp_self]
    · intro ea hea
      show mapFind a (pushNeighbor a a (pushNeighbor a a s.boxes)) = _
      unfold pushNeighbor
      rw [mapFind_mapUpdate_self, mapFind_mapUpdate_self, hea]
      show some (pushFun a (pushFun a ea)) = _
      rw [pushFun_idem]
      rfl
  · exact newLine_idem a a s

/-- C7 witness: connecting the seed box to itself on the initial page
produces the self-loop `1_1`, and repeating the request changes
nothing. -/
theorem c7_witness :
    (newLine 1 1 st0).domLines = st0.domLines ++ [(1, 1)] ∧
    newLine 1 1 (newLine 1 1 st0) = newLine 1 1 st0 := by
  have h := c7_selfConnect 1 st0 (by decide)
  exact ⟨(h.1 (by decide)).1, h.2⟩

/-- C8: an id that names no box makes `newLine` return without creating
anything (and without failing, the function being total), and an un-
known id in an imported snapshot's neighbour lists is never turned
into a line element: every stored line's endpoints are existing boxes. -/
theorem c8_unknownIdSafe :
    (∀ (a b : Nat) (s : GState), a ∉ keys s ∨ b ∉ keys s → newLine a b s = s) ∧
    (∀ (data : Option (List SnapBox)) (s : GState) (p : Nat × Nat),
      p ∈ (upload data s).domLines →
        p.1 ∈ keys (upload data s) ∧ p.2 ∈ keys (upload data s)) := by
  constructor
  · intro a b s h
    unfold newLine
    rw [if_neg]
    rintro ⟨h1, h2⟩
    rcases h with h | h
    · exact h h1
    · exact h h2
  · intro data s p hp
    obtain ⟨_, g2, _, _⟩ := pass1_basic (data.getD []) clearState
      (by simp [clearState, keys])
      rfl
      (by
        intro k e he
        simp [clearState, mapFind] at he)
    rw [show upload data s =
        (data.getD []).foldl importLines ((data.getD []).foldl importBox clearState)
        from rfl, importLines_eq] at hp ⊢
    rw [foldl_newLine_mem_domLines] at hp
    rcases hp with hp | ⟨q, _, hk1, hk2, hcp⟩
    · rw [g2] at hp
      exact absurd hp (List.not_mem_nil _)
    · rw [foldl_newLine_keys]
      rcases cp_cases q.1 q.2 with hc | hc
    
      · rw [hc] at hcp
        rw [← hcp]
        exact ⟨hk1, hk2⟩
      · rw [hc] at hcp
        rw [← hcp]
        exact ⟨hk2, hk1⟩

/-- C8 witness: connecting the unknown id 5 on the initial page changes
nothing, and the edge `1_2` built by an import has both endpoints
among the imported boxes. -/
theorem c8_witness :
    newLine 5 1 st0 = st0 ∧
    ((1 : Nat), (2 : Nat)).1 ∈
      keys (upload (some [⟨some 1, none, none, some [2]⟩, ⟨some 2, none, none, none⟩]) st0) ∧
    ((1 : Nat), (2 : Nat)).2 ∈
      keys (upload (some [⟨some 1, none, none, some [2]⟩, ⟨some 2, none, none, none⟩]) st0) := by
  have h := c8_unknownIdSafe
  refine ⟨h.1 5 1 st0 (Or.inl (by decide)), ?_⟩
  have h2 := h.2 (some [⟨some 1, none, none, some [2]⟩, ⟨some 2, none, none, none⟩]) st0
    (1, 2) (by decide)
  exact h2

/-- C9 counterexample: connecting box 1 to 3 and then to 2 exports box
1's neighbour list as `["3", "2"]` — the stored push order, not
sorted. -/
theorem c9_counterexample :
    (download connect13then12).map SnapBox.lines =
      [some [3, 2], some [1], some [1]] ∧
    ¬ List.Pairwise (· ≤ ·) [3, 2] := by
  refine ⟨?_, ?_⟩ <;> decide

/-- C9 amended: the exported snapshot lists, per node in map insertion
order, its id, its content as `download` reads it (trimmed, with the
`#<id>` footer standing in for empty content), its position and color,
and its neighbour ids in recorded (push) order — not sorted.  Export
reads the state without modifying it, so repeated exports agree. -/
theorem c9_exportShape (s : GState) :
    (download s).map SnapBox.id = (keys s).map some ∧
    (∀ k e, mapFind k s.boxes = some e →
      (⟨some k, some (exportContent e.box.content k),
        some ⟨some e.box.left, some e.box.top, some e.box.color⟩,
        some e.lines⟩ : SnapBox) ∈ download s) := by
  constructor
  · rw [download_eq]
    exact keys_download s.boxes
  · intro k e he
    rw [download_eq]
    exact List.mem_map.mpr ⟨(k, e), mapFind_mem he, rfl⟩

/-- C9 witness: the export of the path 1-2-3 lists ids 1, 2, 3 in
insertion order and contains node 1's full record. -/
theorem c9_witness :
    (download path123).map SnapBox.id = (keys path123).map some ∧
    (⟨some 1, some (exportContent "Seed" 1),
      some ⟨some 0, some 0, some "#f1f1f1"⟩, some [2]⟩ : SnapBox) ∈ download path123 := by
  have h := c9_exportShape path123
  exact ⟨h.1, h.2 1 ⟨⟨"Seed", 0, 0, "#f1f1f1"⟩, [2]⟩ (by decide)⟩

/-- C10: `createNewBlock` never decreases the `totalBoxes` allocator;
after an import the allocator is at least every imported id and at
least every existing key; and on any state whose keys are within the
allocator (as every reachable state is), a fresh creation yields an id
distinct from all existing boxes. -/
theorem c10_allocator :
    (∀ (x y : Int) (c : String) (rid : Option Nat) (s : GState),
      s.totalBoxes ≤ ((createNewBlock x y c rid s).1).totalBoxes) ∧
    (∀ (data : Option (List SnapBox)) (s : GState) (sb : SnapBox) (i : Nat),
      sb ∈ data.getD [] → sb.id = some i → i ≤ (upload data s).totalBoxes) ∧
    (∀ (data : Option (List SnapBox)) (s : GState) (k : Nat),
      k ∈ keys (upload data s) → k ≤ (upload data s).totalBoxes) ∧
    (∀ s : GState, (∀ k ∈ keys s, k ≤ s.totalBoxes) →
      ∀ (x y : Int) (c : String), (createNewBlock x y c none s).2 ∉ keys s) := by
  have huptb : ∀ (data : Option (List SnapBox)) (s : GState),
      (upload data s).totalBoxes =
        ((data.getD []).foldl importBox clearState).totalBoxes := by
    intro data s
    rw [show upload data s =
        (data.getD []).foldl importLines ((data.getD []).foldl importBox clearState)
        from rfl, importLines_eq, foldl_newLine_totalBoxes]
  refine ⟨?_, ?_, ?_, ?_⟩
  · intro x y c rid s
    unfold createNewBlock
    rcases rid with _ | i
    · show s.totalBoxes ≤ s.totalBoxes + 1
      omega
    · show s.totalBoxes ≤ max s.totalBoxes i
      exact le_max_left _ _
  · intro data s sb i hmem hid
    rw [huptb]
    exact pass1_id_le (data.getD []) clearState sb i hmem hid
  · intro data s k hk
    obtain ⟨_, _, g3, _⟩ := pass1_basic (data.getD []) clearState
      (by simp [clearState, keys])
      rfl
      (by
        intro k e he
        simp [clearState, mapFind] at he)
    rw [show upload data s =
        (data.getD []).foldl importLines ((data.getD []).foldl importBox clearState)
        from rfl, importLines_eq, foldl_newLine_keys] at hk
    obtain ⟨e, he⟩ := mapFind_isSome hk
    rw [huptb]
    exact (g3 k e he).2.2
  · intro s hall x y c
    intro hmem
    have := hall _ hmem
    show False
    have he : (createNewBlock x y c none s).2 = s.totalBoxes + 1 := rfl
    rw [he] at this
    omega

/-- C10 witness: importing a box with id 7 advances the allocator to 7,
keys stay within the allocator, and a fresh box created afterwards gets
an id (8) that collides with no restored box. -/
theorem c10_witness :
    st0.totalBoxes ≤ ((createNewBlock 0 0 "New Box" none st0).1).totalBoxes ∧
    (7 : Nat) ≤ (upload (some [⟨some 7, none, none, none⟩]) st0).totalBoxes ∧
    (createNewBlock 0 0 "New Box" none
        (upload (some [⟨some 7, none, none, none⟩]) st0)).2 ∉
      keys (upload (some [⟨some 7, none, none, none⟩]) st0) := by
  have h := c10_allocator
  refine ⟨h.1 0 0 "New Box" none st0, ?_, ?_⟩
  · exact h.2.1 (some [⟨some 7, none, none, none⟩]) st0 ⟨some 7, none, none, none⟩ 7
      (by decide) rfl
  · exact h.2.2.2 (upload (some [⟨some 7, none, none, none⟩]) st0) (by decide) 0 0 "New Box"

theorem filter_eq_nil_of_not_mem {α : Type} [DecidableEq α] {x : α} :
    ∀ {l : List α}, x ∉ l → l.filter (fun p => p = x) = [] := by
  intro l
  induction l with
  | nil => intro _; rfl
  | cons y rest ih =>
      intro h
      rw [List.filter_cons_of_neg, ih (fun hm => h (List.mem_cons_of_mem _ hm))]
      simp only [decide_eq_true_eq]
      intro he
      exact h (he ▸ List.mem_cons_self _ _)

theorem length_filter_eq_one {α : Type} [DecidableEq α] {x : α} :
    ∀ {l : List α}, l.Nodup → x ∈ l → (l.filter (fun p => p = x)).length = 1 := by
  intro l
  induction l with
  | nil => intro _ h; exact absurd h (List.not_mem_nil _)
  | cons y rest ih =>
      intro hnd hx
      rw [List.nodup_cons] at hnd
      by_cases hy : y = x
      · subst hy
        rw [List.filter_cons_of_pos (by simp)]
        rw [filter_eq_nil_of_not_mem hnd.1]
        rfl
      · rw [List.filter_cons_of_neg (by simpa using hy)]
        rcases List.mem_cons.mp hx with rfl | hx
        · exact absurd rfl hy
        · exact ih hnd.2 hx

/-- C4: on an invariant state, for distinct existing boxes `a`, `b`,
connecting twice (in either order the second time) equals connecting
once; the canonical line element is stored exactly once and each
endpoint occurs exactly once in the other's neighbour list; and the
menu's disconnect path on an absent edge leaves the state unchanged. -/
theorem c4_connectIdempotent (s : GState) (a b : Nat) (h : StoreInv s)
    (ha : a ∈ keys s) (hb : b ∈ keys s) (hab : a ≠ b) :
    newLine a b (newLine a b s) = newLine a b s ∧
    newLine b a (newLine a b s) = newLine a b s ∧
    ((newLine a b s).domLines.filter (fun p => p = cp a b)).length = 1 ∧
    (∃ e, mapFind a (newLine a b s).boxes = some e ∧ e.lines.count b = 1) ∧
    (∃ e, mapFind b (newLine a b s).boxes = some e ∧ e.lines.count a = 1) ∧
    (cp a b ∉ s.domLines →
      deleteLineChecked (cp a b).1 (cp a b).2 s = s) := by
  rw [storeInv_iff] at h
  obtain ⟨hk, hnd, hcanon, hedge, hent, _⟩ := h
  obtain ⟨ea, hea⟩ := mapFind_isSome ha
  obtain ⟨eb, heb⟩ := mapFind_isSome hb
  refine ⟨newLine_idem a b s, newLine_comm_absorb a b s, ?_, ?_, ?_, ?_⟩
  · by_cases hmem : cp a b ∈ s.domLines
    · have hst : newLine a b s = s := by
        unfold newLine
        rw [if_pos ⟨ha, hb⟩, if_pos hmem]
      rw [hst]
      exact length_filter_eq_one hnd hmem
    · have hst : (newLine a b s).domLines = s.domLines ++ [cp a b] := by
        unfold newLine
        rw [if_pos ⟨ha, hb⟩, if_neg hmem]
      rw [hst, List.filter_append]
      rw [filter_eq_nil_of_not_mem hmem]
      simp
  · by_cases hmem : cp a b ∈ s.domLines
    · have hst : newLine a b s = s := by
        unfold newLine
        rw [if_pos ⟨ha, hb⟩, if_pos hmem]
      rw [hst]
      obtain ⟨⟨e1, he1, hm1⟩, ⟨e2, he2, hm2⟩⟩ := hedge (cp a b) hmem
      have hmm : b ∈ ea.lines := by
        rcases cp_cases a b with hc | hc
        · rw [hc] at he1 hm1
          rw [hea] at he1
          injection he1 with he1
          rw [he1]
          exact hm1
        · rw [hc] at he2 hm2
          rw [hea] at he2
          injection he2 with he2
          rw [he2]
          exact hm2
      exact ⟨ea, hea, List.count_eq_one_of_mem (hent a ea hea).1 hmm⟩
    · have hst : (newLine a b s).boxes =
          pushNeighbor b a (pushNeighbor a b s.boxes) := by
        unfold newLine
        rw [if_pos ⟨ha, hb⟩, if_neg hmem]
    
      rw [hst]
      unfold pushNeighbor
      rw [mapFind_mapUpdate_ne _ hab, mapFind_mapUpdate_self, hea]
      exact ⟨pushFun b ea, rfl, pushFun_count (hent a ea hea).1⟩
  · by_cases hmem : cp a b ∈ s.domLines
    · have hst : newLine a b s = s := by
        unfold newLine
        rw [if_pos ⟨ha, hb⟩, if_pos hmem]
      rw [hst]
      obtain ⟨⟨e1, he1, hm1⟩, ⟨e2, he2, hm2⟩⟩ := hedge (cp a b) hmem
      have hmm : a ∈ eb.lines := by
        rcases cp_cases a b with hc | hc
        · rw [hc] at he2 hm2
          rw [heb] at he2
          injection he2 with he2
          rw [he2]
          exact hm2
        · rw [hc] at he1 hm1
          rw [heb] at he1
          injection he1 with he1
          rw [he1]
          exact hm1
      exact ⟨eb, heb, List.count_eq_one_of_mem (hent b eb heb).1 hmm⟩
    · have hst : (newLine a b s).boxes =
          pushNeighbor b a (pushNeighbor a b s.boxes) := by
        unfold newLine
        rw [if_pos ⟨ha, hb⟩, if_neg hmem]
      rw [hst]
      unfold pushNeighbor
      rw [mapFind_mapUpdate_self, mapFind_mapUpdate_ne _ (Ne.symm hab), heb]
      exact ⟨pushFun a eb, rfl, pushFun_count (hent b eb heb).1⟩
  · intro hmem
    unfold deleteLineChecked
    rw [show ((cp a b).1, (cp a b).2) = cp a b from rfl, if_neg hmem]

/-- C4 witness: with boxes 1 and 2 and no lines, connecting twice,
counts, and the absent-edge disconnect are as claimed. -/
theorem c4_witness :
    newLine 1 2 (newLine 1 2 st2) = newLine 1 2 st2 ∧
    newLine 2 1 (newLine 1 2 st2) = newLine 1 2 st2 ∧
    ((newLine 1 2 st2).domLines.filter (fun p => p = cp 1 2)).length = 1 ∧
    deleteLineChecked (cp 1 2).1 (cp 1 2).2 st2 = st2 := by
  have h := c4_connectIdempotent st2 1 2 (by decide) (by decide) (by decide) (by decide)
  exact ⟨h.1, h.2.1, h.2.2.1, h.2.2.2.2.2 (by decide)⟩

/-- C2 counterexample: importing two id-less boxes that record each
other leaves a reachable state in which box 1's list names 2 and box
2's list names 1, yet no line element `1_2` exists — the two
representations disagree, refuting the claimed invariant over the
unrestricted operations. -/
theorem c2_counterexample :
    Reachable phantomImport ∧
    listed 1 2 phantomImport ∧ listed 2 1 phantomImport ∧
    ¬ isConnected 1 2 phantomImport := by
  refine ⟨Reachable.imp _ (Reachable.init seedBox0 (by decide)), ?_, ?_, ?_⟩ <;> decide

/-- C2 amended: over states reachable with imports restricted to
snapshots whose boxes all carry ids (the shape `download` produces),
the line element with the canonical key exists iff each endpoint's
neighbour list records the other; and connecting two existing boxes
makes `isConnected` hold in both argument orders. -/
theorem c2_edgeIffMutual (s : GState) (h : ReachableW s) :
    (∀ a b, isConnected a b s ↔ (listed a b s ∧ listed b a s)) ∧
    (∀ a b, a ∈ keys s → b ∈ keys s →
      isConnected a b (newLine a b s) ∧ isConnected b a (newLine a b s)) := by
  have hInv := storeInv_reachableW h
  rw [storeInv_iff] at hInv
  obtain ⟨hk, hnd, hcanon, hedge, hent, hlin⟩ := hInv
  constructor
  · intro a b
    constructor
    · intro hmem
      obtain ⟨⟨e1, he1, hm1⟩, ⟨e2, he2, hm2⟩⟩ := hedge (cp a b) hmem
      rcases cp_cases a b with hc | hc
      · rw [hc] at he1 hm1 he2 hm2
        exact ⟨⟨e1, he1, hm1⟩, ⟨e2, he2, hm2⟩⟩
      · rw [hc] at he1 hm1 he2 hm2
        exact ⟨⟨e2, he2, hm2⟩, ⟨e1, he1, hm1⟩⟩
    · rintro ⟨⟨e1, he1, hm1⟩, ⟨e2, he2, hm2⟩⟩
      exact hlin a e1 he1 b hm1 e2 he2 hm2
  · intro a b ha hb
    refine ⟨newLine_domLines_of_mem ha hb, ?_⟩
    show cp b a ∈ (newLine a b s).domLines
    rw [cp_comm b a]
    exact newLine_domLines_of_mem ha hb
/-- C2 witness: on the initial page the equivalence holds for the pair
(1, 1), and self-connecting the seed box makes `isConnected` hold. -/
theorem c2_witness :
    (isConnected 1 1 st0 ↔ (listed 1 1 st0 ∧ listed 1 1 st0)) ∧
    (isConnected 1 1 (newLine 1 1 st0) ∧ isConnected 1 1 (newLine 1 1 st0)) := by
  have h := c2_edgeIffMutual st0 (ReachableW.init seedBox0 (by decide))
  exact ⟨h.1 1 1, h.2 1 1 (by decide) (by decide)⟩

/-- C1 counterexample: a buildable graph whose single box has empty
content does not survive the round trip: `download` reads the box's
first child — the `#1` footer, the content text node being absent — so
the re-imported box carries content `"#1"`, not `""`. -/
theorem c1_counterexample :
    Reachable emptyContentImport ∧
    (mapFind 1 emptyContentImport.boxes).map (fun e => e.box.content) = some "" ∧
    (mapFind 1 (upload (some (download emptyContentImport)) emptyContentImport).boxes).map
      (fun e => e.box.content) = some "#1" ∧
    ("#1" : String) ≠ "" := by
  refine ⟨Reachable.imp _ (Reachable.init seedBox0 (by decide)), ?_, ?_, ?_⟩ <;> decide

/-- C1 amended: for an invariant graph without phantom one-sided
neighbour references, re-importing the export reconstructs the same
node-id sequence, per-node position and color, and exactly the same
edge relation; content, however, comes back as `download` exported it —
trimmed, with empty content replaced by the `#<id>` footer text — so it
is preserved exactly only when already nonempty and trim-fixed. -/
theorem c1_roundTrip (G s : GState) (hInv : StoreInv G) (hB : LinesBacked G) :
    keys (upload (some (download G)) s) = keys G ∧
    (∀ k e, mapFind k G.boxes = some e →
      ∃ e', mapFind k (upload (some (download G)) s).boxes = some e' ∧
        e'.box.left = e.box.left ∧ e'.box.top = e.box.top ∧
        e'.box.color = e.box.color ∧
        e'.box.content = exportContent e.box.content k) ∧
    (∀ p, p ∈ (upload (some (download G)) s).domLines ↔ p ∈ G.domLines) := by
  obtain ⟨hk, hnd, hcanon, hedge, hent, _⟩ := hInv
  have hvals : ∀ pa ∈ G.boxes, pa.2.box.color ≠ "" ∧ pa.2.lines.Nodup :=
    fun pa hpa => ⟨(hent pa hpa).2.1, (hent pa hpa).1⟩
  obtain ⟨hb1, hd1⟩ := pass1_download G.boxes clearState hk hvals
    (by intro k _; simp [clearState, keys])
  have hup : upload (some (download G)) s =
      (todoPairs (G.boxes.map snapOfEntry)).foldl (fun st2 q => newLine q.1 q.2 st2)
        ((G.boxes.map snapOfEntry).foldl importBox clearState) := by
    rw [show upload (some (download G)) s =
        (download G).foldl importLines ((download G).foldl importBox clearState) from rfl,
      importLines_eq, download_eq]
  have hboxes1 : ((G.boxes.map snapOfEntry).foldl importBox clearState).boxes =
      G.boxes.map importedEntry := by
    rw [hb1]
    rfl
  have hkeys1 : keys ((G.boxes.map snapOfEntry).foldl importBox clearState) = keys G := by
    show ((G.boxes.map snapOfEntry).foldl importBox clearState).boxes.map Prod.fst = _
    rw [hboxes1]
    exact keys_map_importedEntry G.boxes
  refine ⟨?_, ?_, ?_⟩
  · rw [hup, foldl_newLine_keys, hkeys1]
  · intro k e he
    have hfind1 : mapFind k ((G.boxes.map snapOfEntry).foldl importBox clearState).boxes =
        some ⟨⟨exportContent e.box.content k, e.box.left, e.box.top, e.box.color⟩, e.lines⟩ := by
      rw [hboxes1]
      exact mapFind_map_importedEntry he
    have hbox := foldl_newLine_box (todoPairs (G.boxes.map snapOfEntry))
      ((G.boxes.map snapOfEntry).foldl importBox clearState) k
    rw [hfind1] at hbox
    rw [hup]
    rcases hfinal : mapFind k ((todoPairs (G.boxes.map snapOfEntry)).foldl
        (fun st2 q => newLine q.1 q.2 st2)
        ((G.boxes.map snapOfEntry).foldl importBox clearState)).boxes with _ | e'
    · rw [hfinal] at hbox
      exact Option.noConfusion hbox
    · rw [hfinal, Option.map_some'] at hbox
      injection hbox with hbox
      have hbox' : e'.box =
          ⟨exportContent e.box.content k, e.box.left, e.box.top, e.box.color⟩ := hbox
      exact ⟨e', hfinal, by rw [hbox'], by rw [hbox'], by rw [hbox'], by rw [hbox']⟩
  · intro p
    rw [hup, foldl_newLine_mem_domLines, hd1]
    rw [show clearState.domLines = [] from rfl]
    simp only [List.not_mem_nil, false_or]
    constructor
    · rintro ⟨q, hq, hk1, hk2, rfl⟩
      obtain ⟨pa, hpa, h1, h2⟩ := (todoPairs_download G.boxes).mp hq
      rw [hkeys1] at hk2
      have := hB pa hpa q.2 h2 hk2
      rw [← h1]
      exact this
    · intro hp
      obtain ⟨hp1k, hp2k, ⟨pa, hpa, hpa1, hpa2⟩, _⟩ := hedge p hp
      refine ⟨(p.1, p.2), ?_, ?_, ?_, ?_⟩
      · exact (todoPairs_download G.boxes).mpr ⟨pa, hpa, hpa1, hpa2⟩
      · rw [hkeys1]
        exact hp1k
      · rw [hkeys1]
        exact hp2k
      · show cp p.1 p.2 = p
        rw [cp_eq_self (hcanon p hp)]

/-- C1 witness: the two-box graph with the edge `1_2` satisfies both
hypotheses and round-trips: same keys, and the edge `(1, 2)` survives. -/
theorem c1_witness :
    StoreInv (newLine 1 2 st2) ∧ LinesBacked (newLine 1 2 st2) ∧
    keys (upload (some (download (newLine 1 2 st2))) st0) = keys (newLine 1 2 st2) ∧
    ((1, 2) ∈ (upload (some (download (newLine 1 2 st2))) st0).domLines ↔
      (1, 2) ∈ (newLine 1 2 st2).domLines) := by
  have h := c1_roundTrip (newLine 1 2 st2) st0 (by decide) (by decide)
  exact ⟨by decide, by decide, h.1, h.2.2 (1, 2)⟩
